import Mathlib

/-!
# Verification of the ilattice3-procgen dungeon generator

This file gives a shallow embedding of the `ilattice3-procgen` repository
(room-overlap resolution, graph utilities, door geometry, symmetric pair
store, and the dungeon generation pipeline) and proves or refutes the
properties claimed in its specification.

Machine integers are modelled as `Int`/`Nat`.  Stateful loops are modelled
with explicit fuel; `RResult` distinguishes ordinary returns from panics and
fuel exhaustion.  The `ilattice3` crate and the `petgraph`/`rand` crates are
external dependencies of the repository: the operations this code consumes
from them are modelled from the specification (each such definition carries a
doc comment saying so), pinned down by the repository's own unit tests.
-/

namespace Procgen

/-- Modelled from the spec: `Point`, an integer 3-vector on the lattice
(`ilattice3::Point`). -/
structure Point where
  x : Int
  y : Int
  z : Int
deriving DecidableEq, Repr

instance : Inhabited Point := ⟨⟨0, 0, 0⟩⟩

/-- Componentwise addition of lattice points. -/
def Point.add (p q : Point) : Point := ⟨p.x + q.x, p.y + q.y, p.z + q.z⟩

/-- Componentwise subtraction of lattice points. -/
def Point.sub (p q : Point) : Point := ⟨p.x - q.x, p.y - q.y, p.z - q.z⟩

/-- Componentwise maximum of lattice points. -/
def Point.cmax (p q : Point) : Point := ⟨max p.x q.x, max p.y q.y, max p.z q.z⟩

/-- Componentwise minimum of lattice points. -/
def Point.cmin (p q : Point) : Point := ⟨min p.x q.x, min p.y q.y, min p.z q.z⟩

/-- Dot product of lattice points. -/
def Point.dot (p q : Point) : Int := p.x * q.x + p.y * q.y + p.z * q.z

/-- Scalar multiplication of a lattice point. -/
def Point.smul (p : Point) (k : Int) : Point := ⟨p.x * k, p.y * k, p.z * k⟩

/-- Modelled from the spec: `Extent`, an axis-aligned integer box given by a
minimum corner and a per-axis size (`ilattice3::Extent`, built with
`from_min_and_local_supremum`). -/
structure Extent where
  minimum : Point
  localSup : Point
deriving DecidableEq, Repr

instance : Inhabited Extent := ⟨⟨default, default⟩⟩

/-- The exclusive upper corner `minimum + local_supremum` of an extent. -/
def Extent.worldSup (e : Extent) : Point := e.minimum.add e.localSup

/-- Modelled from the spec: emptiness test of an extent (an extent is empty
iff its size is non-positive on some axis). -/
def Extent.isEmpty (e : Extent) : Bool :=
  e.localSup.x ≤ 0 || e.localSup.y ≤ 0 || e.localSup.z ≤ 0

/-- Modelled from the spec: intersection of two extents (componentwise max of
the minima, componentwise min of the world suprema). -/
def Extent.intersection (e1 e2 : Extent) : Extent :=
  let lo := e1.minimum.cmax e2.minimum
  let hi := (e1.worldSup).cmin (e2.worldSup)
  ⟨lo, hi.sub lo⟩

/-- Translation of an extent by a lattice point (`Extent + Point` in Rust). -/
def Extent.addPt (e : Extent) (p : Point) : Extent := ⟨e.minimum.add p, e.localSup⟩

/-- Translation of an extent by the negation of a lattice point
(`Extent - Point` in Rust). -/
def Extent.subPt (e : Extent) (p : Point) : Extent := ⟨e.minimum.sub p, e.localSup⟩

/-- Modelled from the spec: membership of a lattice point in an extent. -/
def Extent.containsWorld (e : Extent) (p : Point) : Bool :=
  decide (e.minimum.x ≤ p.x) && decide (p.x < e.worldSup.x) &&
  decide (e.minimum.y ≤ p.y) && decide (p.y < e.worldSup.y) &&
  decide (e.minimum.z ≤ p.z) && decide (p.z < e.worldSup.z)

/-- Modelled from the spec: the six face normal directions
(`ilattice3::normal::Direction`). -/
inductive Direction where
  | posX | posY | posZ | negX | negY | negZ
deriving DecidableEq, Repr

/-- Whether a direction is one of the negative face normals. -/
def Direction.isNegative : Direction → Bool
  | .negX | .negY | .negZ => true
  | _ => false

/-- The opposite face normal. -/
def Direction.negate : Direction → Direction
  | .posX => .negX
  | .posY => .negY
  | .posZ => .negZ
  | .negX => .posX
  | .negY => .posY
  | .negZ => .posZ

/-- The unit lattice vector of a direction. -/
def Direction.unitVec : Direction → Point
  | .posX => ⟨1, 0, 0⟩
  | .posY => ⟨0, 1, 0⟩
  | .posZ => ⟨0, 0, 1⟩
  | .negX => ⟨-1, 0, 0⟩
  | .negY => ⟨0, -1, 0⟩
  | .negZ => ⟨0, 0, -1⟩

/-- Modelled from the spec: the fixed iteration order of the six directions
(`ALL_DIRECTIONS`); the exact order is a choice of the model. -/
def allDirections : List Direction :=
  [.posX, .posY, .posZ, .negX, .negY, .negZ]

/-- Modelled from the spec: the signed per-direction penetration depth of two
extents (`Extent::penetrations`).  The depth along a positive direction `d`
is the displacement of the first extent along `d` that would make the two
extents just touch on that axis; along a negative direction it is the
corresponding displacement of the second extent.  Zero depth along exactly
one direction characterises a shared face, which is how the repository's own
unit tests pin this definition down. -/
def penetration (e1 e2 : Extent) : Direction → Int
  | .posX => e2.worldSup.x - e1.minimum.x
  | .posY => e2.worldSup.y - e1.minimum.y
  | .posZ => e2.worldSup.z - e1.minimum.z
  | .negX => e1.worldSup.x - e2.minimum.x
  | .negY => e1.worldSup.y - e2.minimum.y
  | .negZ => e1.worldSup.z - e2.minimum.z

/-- Modelled from the spec: `min_vector` on the penetrations, returning the
push vector and direction of minimum penetration depth (first minimum in the
fixed direction order). -/
def minVector (e1 e2 : Extent) : Point × Direction :=
  let best := allDirections.foldl
    (fun acc d => if penetration e1 e2 d < penetration e1 e2 acc then d else acc)
    Direction.posX
  ((Direction.unitVec best).smul (penetration e1 e2 best), best)

/-- Embedding of `push_extents_apart` (src/extent.rs): displace the pair
along the minimum-penetration direction, always moving a box in the positive
direction along the chosen axis. -/
def push_extents_apart (r1 r2 : Extent) : Extent × Extent :=
  let pv := minVector r1 r2
  if (pv.2).isNegative then (r1, r2.subPt pv.1) else (r1.addPt pv.1, r2)

/-- Functional update of a list at an index (out of range leaves the list
unchanged), used to model in-place slice assignment. -/
def listSet : List α → Nat → α → List α
  | [], _, _ => []
  | _ :: xs, 0, v => v :: xs
  | x :: xs, n + 1, v => x :: listSet xs n v

/-- The ordered pairs `(i, j)` with `i < j < n`, in the scan order of the
nested loops of `resolve_extent_overlaps`. -/
def scanPairs (n : Nat) : List (Nat × Nat) :=
  (List.range n).flatMap fun i =>
    ((List.range n).filter (fun j => i < j)).map fun j => (i, j)

/-- One pair step of the inner loops of `resolve_extent_overlaps`: check the
pair for overlap and push the two extents apart if they intersect.  The
`Bool` accumulates `all_rooms_separated` (true = still separated). -/
def resolvePairStep (st : List Extent × Bool) (p : Nat × Nat) :
    List Extent × Bool :=
  let rooms := st.1
  let r1 := rooms.getD p.1 default
  let r2 := rooms.getD p.2 default
  if (r1.intersection r2).isEmpty then st
  else
    let pr := push_extents_apart r1 r2
    (listSet (listSet rooms p.1 pr.1) p.2 pr.2, false)

/-- One full pass of `resolve_extent_overlaps` over all unordered pairs. -/
def resolvePass (rooms : List Extent) : List Extent × Bool :=
  (scanPairs rooms.length).foldl resolvePairStep (rooms, true)

/-- Embedding of `resolve_extent_overlaps` (src/extent.rs) with explicit
fuel bounding the number of passes; `none` models non-termination within the
given fuel. -/
def resolve_extent_overlaps : Nat → List Extent → Option (List Extent)
  | 0, _ => none
  | fuel + 1, rooms =>
    let st := resolvePass rooms
    if st.2 then some st.1 else resolve_extent_overlaps fuel st.1

/-!
## The one-dimensional landing game

Each push of `push_extents_apart` moves, along one axis, the box whose
centre is not smaller than the other box's centre, landing its minimum
exactly on the other box's world supremum.  We prove that no infinite
sequence of such moves exists over any finite family of boxes; termination
of `resolve_extent_overlaps` follows by projecting pushes to their axes.
-/

/-- A one-dimensional box: a position (interval minimum) and a size. -/
structure GBox where
  pos : Int
  size : Int
deriving DecidableEq, Repr

/-- The exclusive upper end of a one-dimensional box. -/
def GBox.wsup (a : GBox) : Int := a.pos + a.size

/-- Twice the centre of a one-dimensional box. -/
def GBox.center (a : GBox) : Int := 2 * a.pos + a.size

/-- Strict interval overlap of two one-dimensional boxes. -/
def overlap1 (a b : GBox) : Prop := b.pos < a.wsup ∧ a.pos < b.wsup

/-- One move of the landing game: a box `v` whose centre is at least the
centre of an overlapping box `w` jumps so that its minimum lands exactly on
the world supremum of `w`; all other boxes are unchanged. -/
def GStep {ι : Type} (s t : ι → GBox) : Prop :=
  ∃ v w : ι, v ≠ w ∧ overlap1 (s v) (s w) ∧ (s w).center ≤ (s v).center ∧
    t v = ⟨(s w).wsup, (s v).size⟩ ∧ ∀ u, u ≠ v → t u = s u

theorem GStep.pos_le {ι : Type} {s t : ι → GBox} (h : GStep s t) (u : ι) :
    (s u).pos ≤ (t u).pos := by
  obtain ⟨v, w, hvw, hov, hc, hupd, hrest⟩ := h
  by_cases huv : u = v
  · subst huv
    rw [hupd]
    exact le_of_lt hov.2
  · rw [hrest u huv]

theorem GStep.size_eq {ι : Type} {s t : ι → GBox} (h : GStep s t) (u : ι) :
    (t u).size = (s u).size := by
  obtain ⟨v, w, hvw, hov, hc, hupd, hrest⟩ := h
  by_cases huv : u = v
  · subst huv
    rw [hupd]
  · rw [hrest u huv]

theorem GStep.center_le {ι : Type} {s t : ι → GBox} (h : GStep s t) (u : ι) :
    (s u).center ≤ (t u).center := by
  have h1 := h.pos_le u
  have h2 := h.size_eq u
  simp only [GBox.center]
  omega

theorem GStep.center_lt_of_ne {ι : Type} {s t : ι → GBox} (h : GStep s t)
    (u : ι) (hne : t u ≠ s u) : (s u).center < (t u).center := by
  obtain ⟨v, w, hvw, hov, hc, hupd, hrest⟩ := h
  by_cases huv : u = v
  · subst huv
    have hpos : (s u).pos < (t u).pos := by
      rw [hupd]
      exact hov.2
    have hsz : (t u).size = (s u).size := by rw [hupd]
    simp only [GBox.center]
    omega
  · exact absurd (hrest u huv) hne

/-- In a run of the landing game, positions are monotone in time. -/
theorem run_pos_mono {ι : Type} {f : ℕ → ι → GBox}
    (h : ∀ k, GStep (f k) (f (k + 1))) (u : ι) {k m : ℕ} (hkm : k ≤ m) :
    (f k u).pos ≤ (f m u).pos := by
  induction m with
  | zero => simp_all
  | succ m ih =>
    rcases Nat.lt_or_ge k (m + 1) with hlt | hge
    · exact le_trans (ih (Nat.lt_succ_iff.mp hlt)) ((h m).pos_le u)
    · have : k = m + 1 := le_antisymm hkm hge
      subst this
      exact le_refl _

/-- In a run of the landing game, centres are monotone in time. -/
theorem run_center_mono {ι : Type} {f : ℕ → ι → GBox}
    (h : ∀ k, GStep (f k) (f (k + 1))) (u : ι) {k m : ℕ} (hkm : k ≤ m) :
    (f k u).center ≤ (f m u).center := by
  induction m with
  | zero => simp_all
  | succ m ih =>
    rcases Nat.lt_or_ge k (m + 1) with hlt | hge
    · exact le_trans (ih (Nat.lt_succ_iff.mp hlt)) ((h m).center_le u)
    · have : k = m + 1 := le_antisymm hkm hge
      subst this
      exact le_refl _

/-- A box whose centre has not increased up to time `m` has not changed at
all up to time `m`. -/
theorem run_unchanged_of_center_eq {ι : Type} {f : ℕ → ι → GBox}
    (h : ∀ k, GStep (f k) (f (k + 1))) (u : ι) {m : ℕ}
    (hc : (f m u).center = (f 0 u).center) :
    ∀ k, k ≤ m → f k u = f 0 u := by
  have hnostep : ∀ j, j < m → f (j + 1) u = f j u := by
    intro j hj
    by_contra hne
    have h1 : (f j u).center < (f (j + 1) u).center :=
      (h j).center_lt_of_ne u hne
    have h2 : (f 0 u).center ≤ (f j u).center :=
      run_center_mono h u (Nat.zero_le j)
    have h3 : (f (j + 1) u).center ≤ (f m u).center :=
      run_center_mono h u (Nat.succ_le_of_lt hj)
    omega
  intro k hk
  induction k with
  | zero => rfl
  | succ k ih =>
    rw [hnostep k (Nat.lt_of_succ_le hk)]
    exact ih (Nat.le_of_succ_le hk)

/-- In every infinite run of the landing game over a nonempty finite family,
some box never changes: a box of minimal centre can only move onto a box of
equally minimal centre, and the last such box to make its first move would
have no target left. -/
theorem exists_static_box {ι : Type} [Fintype ι] {f : ℕ → ι → GBox}
    (h : ∀ k, GStep (f k) (f (k + 1))) (hne : Nonempty ι) :
    ∃ b, ∀ k, f k b = f 0 b := by
  classical
  by_contra hcon
  push_neg at hcon
  -- every box has a first change step
  have hstep : ∀ u : ι, ∃ k, f (k + 1) u ≠ f k u := by
    intro u
    obtain ⟨k, hk⟩ := hcon u
    by_contra hall
    push_neg at hall
    have : ∀ j, f j u = f 0 u := by
      intro j
      induction j with
      | zero => rfl
      | succ j ih => rw [hall j, ih]
    exact hk (this k)
  let fm : ι → ℕ := fun u => Nat.find (hstep u)
  have fm_spec : ∀ u, f (fm u + 1) u ≠ f (fm u) u := fun u => Nat.find_spec (hstep u)
  have fm_min : ∀ u j, j < fm u → f (j + 1) u = f j u := by
    intro u j hj
    have := Nat.find_min (hstep u) hj
    simpa using this
  have fm_unchanged : ∀ u j, j ≤ fm u → f j u = f 0 u := by
    intro u j hj
    induction j with
    | zero => rfl
    | succ j ih =>
      rw [fm_min u j (Nat.lt_of_succ_le hj), ih (Nat.le_of_succ_le hj)]
  -- the boxes of minimal initial centre
  obtain ⟨b0, _, hb0⟩ := Finset.exists_min_image Finset.univ
    (fun u => (f 0 u).center) ⟨hne.some, Finset.mem_univ _⟩
  set μ := (f 0 b0).center with hμ
  have hμ_le : ∀ u : ι, μ ≤ (f 0 u).center := fun u => hb0 u (Finset.mem_univ u)
  set M : Finset ι := Finset.univ.filter (fun u => (f 0 u).center = μ) with hM
  have hb0M : b0 ∈ M := by
    simp [hM]
  obtain ⟨z, hzM, hz⟩ := Finset.exists_max_image M fm ⟨b0, hb0M⟩
  have hzμ : (f 0 z).center = μ := by
    simpa [hM] using hzM
  -- the step at z's first move
  obtain ⟨v, w, hvw, hov, hc, hupd, hrest⟩ := h (fm z)
  have hzv : z = v := by
    by_contra hzv
    exact fm_spec z (hrest z hzv)
  subst hzv
  -- the target w also has minimal centre and is unchanged up to fm z
  have hwv : (f (fm z) z) = f 0 z := fm_unchanged z (fm z) (le_refl _)
  have hcw : (f (fm z) w).center = μ := by
    have h1 : (f (fm z) w).center ≤ (f (fm z) z).center := hc
    have h2 : μ ≤ (f 0 w).center := hμ_le w
    have h3 : (f 0 w).center ≤ (f (fm z) w).center :=
      run_center_mono h w (Nat.zero_le _)
    rw [hwv, hzμ] at h1
    omega
  have hcw0 : (f 0 w).center = μ := by
    have h2 : μ ≤ (f 0 w).center := hμ_le w
    have h3 : (f 0 w).center ≤ (f (fm z) w).center :=
      run_center_mono h w (Nat.zero_le _)
    omega
  have hwM : w ∈ M := by
    simp [hM, hcw0]
  have hw_unch : ∀ k, k ≤ fm z → f k w = f 0 w := by
    refine run_unchanged_of_center_eq h w ?_
    rw [hcw, hcw0]
  -- w's first move is at most fm z, but w does not change at step fm z
  have hfmw : fm w ≤ fm z := hz w hwM
  rcases Nat.lt_or_ge (fm w) (fm z) with hlt | hge
  · have e1 : f (fm w + 1) w = f 0 w := hw_unch (fm w + 1) (Nat.succ_le_of_lt hlt)
    have e2 : f (fm w) w = f 0 w := hw_unch (fm w) (le_of_lt hlt)
    exact fm_spec w (e1.trans e2.symm)
  · have heq : fm w = fm z := le_antisymm hfmw hge
    have : f (fm w + 1) w = f (fm w) w := by
      rw [heq]
      exact hrest w (Ne.symm hvw)
    exact fm_spec w this

theorem GStep.pos_lt_of_ne {ι : Type} {s t : ι → GBox} (h : GStep s t)
    (u : ι) (hne : t u ≠ s u) : (s u).pos < (t u).pos := by
  obtain ⟨v, w, hvw, hov, hc, hupd, hrest⟩ := h
  by_cases huv : u = v
  · subst huv
    rw [hupd]
    exact hov.2
  · exact absurd (hrest u huv) hne

/-- No infinite run of the landing game exists over a finite family of boxes
of bounded cardinality: the static box of `exists_static_box` is eventually
never landed on (each other box can land on it at most once, since landing
pins the mover's position to the static box's fixed world supremum), after
which the run restricts to one fewer box. -/
theorem game_terminates_aux : ∀ (n : ℕ) (ι : Type) [Fintype ι] [DecidableEq ι],
    Fintype.card ι ≤ n →
    ∀ f : ℕ → ι → GBox, (∀ k, GStep (f k) (f (k + 1))) → False := by
  intro n
  induction n with
  | zero =>
    intro ι instF instD hcard f hf
    have hempty : IsEmpty ι := Fintype.card_eq_zero_iff.mp (Nat.le_zero.mp hcard)
    obtain ⟨v, -⟩ := hf 0
    exact hempty.false v
  | succ n ih =>
    intro ι instF instD hcard f hf
    classical
    rcases Nat.eq_zero_or_pos (Fintype.card ι) with hzero | hpos
    · have hempty : IsEmpty ι := Fintype.card_eq_zero_iff.mp hzero
      obtain ⟨v, -⟩ := hf 0
      exact hempty.false v
    have hne : Nonempty ι := Fintype.card_pos_iff.mp hpos
    obtain ⟨b, hb⟩ := exists_static_box hf hne
    set W := (f 0 b).wsup with hW
    -- landing times onto the fixed level W are finite: at most one per box
    set S : ι → Set ℕ :=
      fun v => {k | f (k + 1) v ≠ f k v ∧ (f (k + 1) v).pos = W} with hS
    have hsub : ∀ v, (S v).Subsingleton := by
      intro v k1 hk1 k2 hk2
      by_contra hne12
      rcases Nat.lt_or_ge k1 k2 with hlt | hge
      · have h1 : (f (k1 + 1) v).pos = W := hk1.2
        have h2 : (f (k1 + 1) v).pos ≤ (f k2 v).pos :=
          run_pos_mono hf v (Nat.succ_le_of_lt hlt)
        have h3 : (f k2 v).pos < (f (k2 + 1) v).pos :=
          (hf k2).pos_lt_of_ne v hk2.1
        have h4 : (f (k2 + 1) v).pos = W := hk2.2
        omega
      · have hlt : k2 < k1 := lt_of_le_of_ne hge (fun e => hne12 e.symm)
        have h1 : (f (k2 + 1) v).pos = W := hk2.2
        have h2 : (f (k2 + 1) v).pos ≤ (f k1 v).pos :=
          run_pos_mono hf v (Nat.succ_le_of_lt hlt)
        have h3 : (f k1 v).pos < (f (k1 + 1) v).pos :=
          (hf k1).pos_lt_of_ne v hk1.1
        have h4 : (f (k1 + 1) v).pos = W := hk1.2
        omega
    have hfin : (⋃ v, S v).Finite :=
      Set.finite_iUnion (fun v => (hsub v).finite)
    obtain ⟨K, hK⟩ := hfin.bddAbove
    -- after time K, no move lands on b and b itself never moves
    set g : ℕ → {u : ι // u ≠ b} → GBox :=
      fun k u => f (K + 1 + k) u.val with hg
    have hstep : ∀ k, GStep (g k) (g (k + 1)) := by
      intro k
      obtain ⟨v, w, hvw, hov, hc, hupd, hrest⟩ := hf (K + 1 + k)
      have hidx : K + 1 + (k + 1) = K + 1 + k + 1 := by omega
      have hvchange : f (K + 1 + k + 1) v ≠ f (K + 1 + k) v := by
        intro heq
        have : (f (K + 1 + k) v).pos < (f (K + 1 + k + 1) v).pos := by
          rw [hupd]
          exact hov.2
        rw [heq] at this
        omega
      have hvb : v ≠ b := by
        intro hvb
        subst hvb
        exact hvchange ((hb (K + 1 + k + 1)).trans (hb (K + 1 + k)).symm)
      have hwb : w ≠ b := by
        intro hwb
        subst hwb
        have hmem : (K + 1 + k) ∈ S v := by
          constructor
          · exact hvchange
          · rw [hupd, hb (K + 1 + k), hW]
        have : K + 1 + k ≤ K := hK (Set.mem_iUnion.mpr ⟨v, hmem⟩)
        omega
      refine ⟨⟨v, hvb⟩, ⟨w, hwb⟩, ?_, ?_, ?_, ?_, ?_⟩
      · intro hh
        exact hvw (congrArg Subtype.val hh)
      · exact hov
      · exact hc
      · show f (K + 1 + (k + 1)) v = _
        rw [hidx, hupd]
      · intro u hu
        show f (K + 1 + (k + 1)) u.val = f (K + 1 + k) u.val
        rw [hidx]
        refine hrest u.val ?_
        intro he
        exact hu (Subtype.ext he)
    have hcard' : Fintype.card {u : ι // u ≠ b} ≤ n := by
      have h1 : Fintype.card {u : ι // u ≠ b} = Fintype.card ι - 1 := by
        have h2 := Fintype.card_subtype_compl (fun u : ι => u = b)
        rw [Fintype.card_subtype_eq] at h2
        exact h2
      omega
    exact ih {u : ι // u ≠ b} hcard' g hstep

/-- No infinite run of the landing game exists over any finite index type. -/
theorem game_terminates {ι : Type} [Fintype ι] [DecidableEq ι]
    (f : ℕ → ι → GBox) (hf : ∀ k, GStep (f k) (f (k + 1))) : False :=
  game_terminates_aux (Fintype.card ι) ι (le_refl _) f hf

theorem listSet_length {α : Type} (l : List α) (n : Nat) (v : α) :
    (listSet l n v).length = l.length := by
  induction l generalizing n with
  | nil => rfl
  | cons x xs ih =>
    cases n with
    | zero => rfl
    | succ n => simp [listSet, ih]

theorem listSet_getD_same {α : Type} (l : List α) (n : Nat) (v d : α)
    (hn : n < l.length) : (listSet l n v).getD n d = v := by
  induction l generalizing n with
  | nil => simp at hn
  | cons x xs ih =>
    cases n with
    | zero => rfl
    | succ n =>
      simp only [listSet, List.getD_cons_succ]
      exact ih n (by simpa using hn)

theorem listSet_getD_other {α : Type} (l : List α) (n : Nat) (v d : α)
    (m : Nat) (hm : m ≠ n) : (listSet l n v).getD m d = l.getD m d := by
  induction l generalizing n m with
  | nil => rfl
  | cons x xs ih =>
    cases n with
    | zero =>
      cases m with
      | zero => exact absurd rfl hm
      | succ m => rfl
    | succ n =>
      cases m with
      | zero => rfl
      | succ m =>
        simp only [listSet, List.getD_cons_succ]
        exact ih n m (by omega)

/-- The result of the direction-argmin fold is no worse than the initial
accumulator and than every listed direction. -/
theorem foldl_argmin_spec (pen : Direction → Int) (l : List Direction)
    (init : Direction) :
    pen (l.foldl (fun acc d => if pen d < pen acc then d else acc) init) ≤ pen init ∧
    ∀ d ∈ l, pen (l.foldl (fun acc d => if pen d < pen acc then d else acc) init) ≤ pen d := by
  induction l generalizing init with
  | nil => exact ⟨le_refl _, by simp⟩
  | cons x xs ih =>
    simp only [List.foldl_cons]
    by_cases hx : pen x < pen init
    · simp only [if_pos hx]
      refine ⟨le_trans (ih x).1 (le_of_lt hx), ?_⟩
      intro d hd
      rcases List.mem_cons.mp hd with rfl | hd
      · exact (ih d).1
      · exact (ih x).2 d hd
    · simp only [if_neg hx]
      refine ⟨(ih init).1, ?_⟩
      intro d hd
      rcases List.mem_cons.mp hd with rfl | hd
      · exact le_trans (ih init).1 (not_lt.mp hx)
      · exact (ih init).2 d hd

/-- The chosen direction of `minVector` has minimal penetration depth among
all six directions. -/
theorem minVector_min (e1 e2 : Extent) (d : Direction) :
    penetration e1 e2 (minVector e1 e2).2 ≤ penetration e1 e2 d := by
  have hspec := foldl_argmin_spec (penetration e1 e2) allDirections Direction.posX
  have hmem : d ∈ allDirections := by
    cases d <;> simp [allDirections]
  exact hspec.2 d hmem

theorem intersection_isEmpty_false_iff (e1 e2 : Extent) :
    (e1.intersection e2).isEmpty = false ↔
      (e2.minimum.x < e1.worldSup.x ∧ e1.minimum.x < e2.worldSup.x ∧
        e1.minimum.x < e1.worldSup.x ∧ e2.minimum.x < e2.worldSup.x) ∧
      (e2.minimum.y < e1.worldSup.y ∧ e1.minimum.y < e2.worldSup.y ∧
        e1.minimum.y < e1.worldSup.y ∧ e2.minimum.y < e2.worldSup.y) ∧
      (e2.minimum.z < e1.worldSup.z ∧ e1.minimum.z < e2.worldSup.z ∧
        e1.minimum.z < e1.worldSup.z ∧ e2.minimum.z < e2.worldSup.z) := by
  simp only [Extent.intersection, Extent.isEmpty, Extent.worldSup, Point.add,
    Point.cmax, Point.cmin, Point.sub, Bool.or_eq_false_iff, decide_eq_false_iff_not,
    not_le]
  omega

/-- The single-push relation on room lists: some ordered pair of distinct
in-range indices holds intersecting extents, which are replaced by the
result of `push_extents_apart`.  This is exactly the state change performed
by one iteration of the inner loops of `resolve_extent_overlaps` when the
pair overlaps. -/
def PushRel (s t : List Extent) : Prop :=
  ∃ i j, i < j ∧ j < s.length ∧
    ((s.getD i default).intersection (s.getD j default)).isEmpty = false ∧
    t = listSet (listSet s i
          (push_extents_apart (s.getD i default) (s.getD j default)).1) j
          (push_extents_apart (s.getD i default) (s.getD j default)).2

theorem PushRel.length_eq {s t : List Extent} (h : PushRel s t) :
    t.length = s.length := by
  obtain ⟨i, j, _, _, _, ht⟩ := h
  rw [ht, listSet_length, listSet_length]

/-- The three lattice axes. -/
inductive Axis where
  | ax | ay | az
deriving DecidableEq, Repr

/-- The coordinate of a point along an axis. -/
def Point.proj (p : Point) : Axis → Int
  | .ax => p.x
  | .ay => p.y
  | .az => p.z

/-- The one-dimensional boxes obtained by projecting a room list to an
axis. -/
def projAxis (a : Axis) (n : Nat) (s : List Extent) : Fin n → GBox :=
  fun k => ⟨(s.getD k.val default).minimum.proj a, (s.getD k.val default).localSup.proj a⟩

theorem minVector_fst (e1 e2 : Extent) :
    (minVector e1 e2).1 =
      ((minVector e1 e2).2.unitVec).smul (penetration e1 e2 (minVector e1 e2).2) := rfl

theorem pushRel_project {s t : List Extent} (h : PushRel s t) (n : Nat)
    (hn : n = s.length) :
    ∃ a : Axis, GStep (projAxis a n s) (projAxis a n t) ∧
      ∀ a2 : Axis, a2 ≠ a → projAxis a2 n s = projAxis a2 n t := by
  obtain ⟨i, j, hij, hjn, hover, ht⟩ := h
  set r1 := s.getD i default with hr1
  set r2 := s.getD j default with hr2
  have hov := (intersection_isEmpty_false_iff r1 r2).mp hover
  have hlen1 : (listSet s i (push_extents_apart r1 r2).1).length = s.length :=
    listSet_length _ _ _
  have htat_i : t.getD i default = (push_extents_apart r1 r2).1 := by
    rw [ht, listSet_getD_other _ _ _ _ i (Nat.ne_of_lt hij),
      listSet_getD_same _ _ _ _ (by omega)]
  have htat_j : t.getD j default = (push_extents_apart r1 r2).2 := by
    rw [ht, listSet_getD_same _ _ _ _ (by rw [hlen1]; omega)]
  have htat : ∀ u, u ≠ i → u ≠ j → t.getD u default = s.getD u default := by
    intro u hui huj
    rw [ht, listSet_getD_other _ _ _ _ u huj, listSet_getD_other _ _ _ _ u hui]
  have hmin := minVector_min r1 r2
  rcases hbest : (minVector r1 r2).2 with _ | _ | _ | _ | _ | _
  case posX =>
    have hp : push_extents_apart r1 r2 =
        (r1.addPt ((Direction.unitVec .posX).smul (penetration r1 r2 .posX)), r2) := by
      rw [push_extents_apart, minVector_fst, hbest]
      simp [Direction.isNegative]
    have hcmp : penetration r1 r2 .posX ≤ penetration r1 r2 .negX := by
      have := hmin .negX
      rw [hbest] at this
      exact this
    refine ⟨Axis.ax, ?_, ?_⟩
    · refine ⟨⟨i, by omega⟩, ⟨j, by omega⟩, ?_, ?_, ?_, ?_, ?_⟩
      · intro hh
        have : i = j := congrArg Fin.val hh
        omega
      · constructor
        · show (s.getD j default).minimum.proj .ax <
            (projAxis .ax n s ⟨i, by omega⟩).wsup
          simp only [projAxis, GBox.wsup, Point.proj, ← hr1, ← hr2]
          have := hov.1
          simp only [Extent.worldSup, Point.add] at this ⊢
          omega
        · show (s.getD i default).minimum.proj .ax <
            (projAxis .ax n s ⟨j, by omega⟩).wsup
          simp only [projAxis, GBox.wsup, Point.proj, ← hr1, ← hr2]
          have := hov.1
          simp only [Extent.worldSup, Point.add] at this ⊢
          omega
      · show (projAxis .ax n s ⟨j, by omega⟩).center ≤
          (projAxis .ax n s ⟨i, by omega⟩).center
        simp only [projAxis, GBox.center, Point.proj, ← hr1, ← hr2]
        simp only [penetration, Extent.worldSup, Point.add] at hcmp
        omega
      · show projAxis .ax n t ⟨i, by omega⟩ = _
        simp only [projAxis, htat_i, hp, Extent.addPt, Point.add, Point.smul,
          Direction.unitVec, penetration, Extent.worldSup, GBox.wsup, Point.proj,
          ← hr1, ← hr2]
        refine congrArg₂ GBox.mk ?_ rfl
        ring
      · intro u hu
        have huvi : u.val ≠ i := by
          intro he
          exact hu (Fin.ext he)
        by_cases huj : u.val = j
        · simp only [projAxis, htat_j, hp, ← hr2, huj]
        · simp only [projAxis, htat u.val huvi huj]
    · intro a2 ha2
      funext u
      by_cases hui : u.val = i
      · simp only [projAxis, hui, htat_i, hp, Extent.addPt, Point.add, Point.smul,
          Direction.unitVec]
        rcases a2 with _ | _ | _
        · exact absurd rfl ha2
        · simp only [Point.proj, Point.add]
          rw [← hr1]
          refine congrArg₂ GBox.mk ?_ rfl
          ring
        · simp only [Point.proj, Point.add]
          rw [← hr1]
          refine congrArg₂ GBox.mk ?_ rfl
          ring
      · by_cases huj : u.val = j
        · simp only [projAxis, huj, htat_j, hp, ← hr2]
        · simp only [projAxis, htat u.val hui huj]

  case posY =>
    have hp : push_extents_apart r1 r2 =
        (r1.addPt ((Direction.unitVec .posY).smul (penetration r1 r2 .posY)), r2) := by
      rw [push_extents_apart, minVector_fst, hbest]
      simp [Direction.isNegative]
    have hcmp : penetration r1 r2 .posY ≤ penetration r1 r2 .negY := by
      have := hmin .negY
      rw [hbest] at this
      exact this
    refine ⟨Axis.ay, ?_, ?_⟩
    · refine ⟨⟨i, by omega⟩, ⟨j, by omega⟩, ?_, ?_, ?_, ?_, ?_⟩
      · intro hh
        have : i = j := congrArg Fin.val hh
        omega
      · constructor
        · show (s.getD j default).minimum.proj .ay <
            (projAxis .ay n s ⟨i, by omega⟩).wsup
          simp only [projAxis, GBox.wsup, Point.proj, ← hr1, ← hr2]
          have := hov.2.1
          simp only [Extent.worldSup, Point.add] at this ⊢
          omega
        · show (s.getD i default).minimum.proj .ay <
            (projAxis .ay n s ⟨j, by omega⟩).wsup
          simp only [projAxis, GBox.wsup, Point.proj, ← hr1, ← hr2]
          have := hov.2.1
          simp only [Extent.worldSup, Point.add] at this ⊢
          omega
      · show (projAxis .ay n s ⟨j, by omega⟩).center ≤
          (projAxis .ay n s ⟨i, by omega⟩).center
        simp only [projAxis, GBox.center, Point.proj, ← hr1, ← hr2]
        simp only [penetration, Extent.worldSup, Point.add] at hcmp
        omega
      · show projAxis .ay n t ⟨i, by omega⟩ = _
        simp only [projAxis, htat_i, hp, Extent.addPt, Point.add, Point.smul,
          Direction.unitVec, penetration, Extent.worldSup, GBox.wsup, Point.proj,
          ← hr1, ← hr2]
        refine congrArg₂ GBox.mk ?_ rfl
        ring
      · intro u hu
        have huvi : u.val ≠ i := by
          intro he
          exact hu (Fin.ext he)
        by_cases huj : u.val = j
        · simp only [projAxis, htat_j, hp, ← hr2, huj]
        · simp only [projAxis, htat u.val huvi huj]
    · intro a2 ha2
      funext u
      by_cases hui : u.val = i
      · simp only [projAxis, hui, htat_i, hp, Extent.addPt, Point.add, Point.smul,
          Direction.unitVec]
        rcases a2 with _ | _ | _
        · simp only [Point.proj, Point.add]
          rw [← hr1]
          refine congrArg₂ GBox.mk ?_ rfl
          ring
        · exact absurd rfl ha2
        · simp only [Point.proj, Point.add]
          rw [← hr1]
          refine congrArg₂ GBox.mk ?_ rfl
          ring
      · by_cases huj : u.val = j
        · simp only [projAxis, huj, htat_j, hp, ← hr2]
        · simp only [projAxis, htat u.val hui huj]

  case posZ =>
    have hp : push_extents_apart r1 r2 =
        (r1.addPt ((Direction.unitVec .posZ).smul (penetration r1 r2 .posZ)), r2) := by
      rw [push_extents_apart, minVector_fst, hbest]
      simp [Direction.isNegative]
    have hcmp : penetration r1 r2 .posZ ≤ penetration r1 r2 .negZ := by
      have := hmin .negZ
      rw [hbest] at this
      exact this
    refine ⟨Axis.az, ?_, ?_⟩
    · refine ⟨⟨i, by omega⟩, ⟨j, by omega⟩, ?_, ?_, ?_, ?_, ?_⟩
      · intro hh
        have : i = j := congrArg Fin.val hh
        omega
      · constructor
        · show (s.getD j default).minimum.proj .az <
            (projAxis .az n s ⟨i, by omega⟩).wsup
          simp only [projAxis, GBox.wsup, Point.proj, ← hr1, ← hr2]
          have := hov.2.2
          simp only [Extent.worldSup, Point.add] at this ⊢
          omega
        · show (s.getD i default).minimum.proj .az <
            (projAxis .az n s ⟨j, by omega⟩).wsup
          simp only [projAxis, GBox.wsup, Point.proj, ← hr1, ← hr2]
          have := hov.2.2
          simp only [Extent.worldSup, Point.add] at this ⊢
          omega
      · show (projAxis .az n s ⟨j, by omega⟩).center ≤
          (projAxis .az n s ⟨i, by omega⟩).center
        simp only [projAxis, GBox.center, Point.proj, ← hr1, ← hr2]
        simp only [penetration, Extent.worldSup, Point.add] at hcmp
        omega
      · show projAxis .az n t ⟨i, by omega⟩ = _
        simp only [projAxis, htat_i, hp, Extent.addPt, Point.add, Point.smul,
          Direction.unitVec, penetration, Extent.worldSup, GBox.wsup, Point.proj,
          ← hr1, ← hr2]
        refine congrArg₂ GBox.mk ?_ rfl
        ring
      · intro u hu
        have huvi : u.val ≠ i := by
          intro he
          exact hu (Fin.ext he)
        by_cases huj : u.val = j
        · simp only [projAxis, htat_j, hp, ← hr2, huj]
        · simp only [projAxis, htat u.val huvi huj]
    · intro a2 ha2
      funext u
      by_cases hui : u.val = i
      · simp only [projAxis, hui, htat_i, hp, Extent.addPt, Point.add, Point.smul,
          Direction.unitVec]
        rcases a2 with _ | _ | _
        · simp only [Point.proj, Point.add]
          rw [← hr1]
          refine congrArg₂ GBox.mk ?_ rfl
          ring
        · simp only [Point.proj, Point.add]
          rw [← hr1]
          refine congrArg₂ GBox.mk ?_ rfl
          ring
        · exact absurd rfl ha2
      · by_cases huj : u.val = j
        · simp only [projAxis, huj, htat_j, hp, ← hr2]
        · simp only [projAxis, htat u.val hui huj]

  case negX =>
    have hp : push_extents_apart r1 r2 =
        (r1, r2.subPt ((Direction.unitVec .negX).smul (penetration r1 r2 .negX))) := by
      rw [push_extents_apart, minVector_fst, hbest]
      simp [Direction.isNegative]
    have hcmp : penetration r1 r2 .negX ≤ penetration r1 r2 .posX := by
      have := hmin .posX
      rw [hbest] at this
      exact this
    refine ⟨Axis.ax, ?_, ?_⟩
    · refine ⟨⟨j, by omega⟩, ⟨i, by omega⟩, ?_, ?_, ?_, ?_, ?_⟩
      · intro hh
        have : j = i := congrArg Fin.val hh
        omega
      · constructor
        · show (s.getD i default).minimum.proj .ax <
            (projAxis .ax n s ⟨j, by omega⟩).wsup
          simp only [projAxis, GBox.wsup, Point.proj, ← hr1, ← hr2]
          have := hov.1
          simp only [Extent.worldSup, Point.add] at this ⊢
          omega
        · show (s.getD j default).minimum.proj .ax <
            (projAxis .ax n s ⟨i, by omega⟩).wsup
          simp only [projAxis, GBox.wsup, Point.proj, ← hr1, ← hr2]
          have := hov.1
          simp only [Extent.worldSup, Point.add] at this ⊢
          omega
      · show (projAxis .ax n s ⟨i, by omega⟩).center ≤
          (projAxis .ax n s ⟨j, by omega⟩).center
        simp only [projAxis, GBox.center, Point.proj, ← hr1, ← hr2]
        simp only [penetration, Extent.worldSup, Point.add] at hcmp
        omega
      · show projAxis .ax n t ⟨j, by omega⟩ = _
        simp only [projAxis, htat_j, hp, Extent.subPt, Point.sub, Point.add,
          Point.smul, Direction.unitVec, penetration, Extent.worldSup, GBox.wsup,
          Point.proj, ← hr1, ← hr2]
        refine congrArg₂ GBox.mk ?_ rfl
        ring
      · intro u hu
        have huvj : u.val ≠ j := by
          intro he
          exact hu (Fin.ext he)
        by_cases hui : u.val = i
        · simp only [projAxis, htat_i, hp, ← hr1, hui]
        · simp only [projAxis, htat u.val hui huvj]
    · intro a2 ha2
      funext u
      by_cases huj : u.val = j
      · simp only [projAxis, huj, htat_j, hp, Extent.subPt, Point.sub, Point.smul,
          Direction.unitVec]
        rcases a2 with _ | _ | _
        · exact absurd rfl ha2
        · simp only [Point.proj, Point.sub]
          rw [← hr2]
          refine congrArg₂ GBox.mk ?_ rfl
          ring
        · simp only [Point.proj, Point.sub]
          rw [← hr2]
          refine congrArg₂ GBox.mk ?_ rfl
          ring
      · by_cases hui : u.val = i
        · simp only [projAxis, hui, htat_i, hp, ← hr1]
        · simp only [projAxis, htat u.val hui huj]

  case negY =>
    have hp : push_extents_apart r1 r2 =
        (r1, r2.subPt ((Direction.unitVec .negY).smul (penetration r1 r2 .negY))) := by
      rw [push_extents_apart, minVector_fst, hbest]
      simp [Direction.isNegative]
    have hcmp : penetration r1 r2 .negY ≤ penetration r1 r2 .posY := by
      have := hmin .posY
      rw [hbest] at this
      exact this
    refine ⟨Axis.ay, ?_, ?_⟩
    · refine ⟨⟨j, by omega⟩, ⟨i, by omega⟩, ?_, ?_, ?_, ?_, ?_⟩
      · intro hh
        have : j = i := congrArg Fin.val hh
        omega
      · constructor
        · show (s.getD i default).minimum.proj .ay <
            (projAxis .ay n s ⟨j, by omega⟩).wsup
          simp only [projAxis, GBox.wsup, Point.proj, ← hr1, ← hr2]
          have := hov.2.1
          simp only [Extent.worldSup, Point.add] at this ⊢
          omega
        · show (s.getD j default).minimum.proj .ay <
            (projAxis .ay n s ⟨i, by omega⟩).wsup
          simp only [projAxis, GBox.wsup, Point.proj, ← hr1, ← hr2]
          have := hov.2.1
          simp only [Extent.worldSup, Point.add] at this ⊢
          omega
      · show (projAxis .ay n s ⟨i, by omega⟩).center ≤
          (projAxis .ay n s ⟨j, by omega⟩).center
        simp only [projAxis, GBox.center, Point.proj, ← hr1, ← hr2]
        simp only [penetration, Extent.worldSup, Point.add] at hcmp
        omega
      · show projAxis .ay n t ⟨j, by omega⟩ = _
        simp only [projAxis, htat_j, hp, Extent.subPt, Point.sub, Point.add,
          Point.smul, Direction.unitVec, penetration, Extent.worldSup, GBox.wsup,
          Point.proj, ← hr1, ← hr2]
        refine congrArg₂ GBox.mk ?_ rfl
        ring
      · intro u hu
        have huvj : u.val ≠ j := by
          intro he
          exact hu (Fin.ext he)
        by_cases hui : u.val = i
        · simp only [projAxis, htat_i, hp, ← hr1, hui]
        · simp only [projAxis, htat u.val hui huvj]
    · intro a2 ha2
      funext u
      by_cases huj : u.val = j
      · simp only [projAxis, huj, htat_j, hp, Extent.subPt, Point.sub, Point.smul,
          Direction.unitVec]
        rcases a2 with _ | _ | _
        · simp only [Point.proj, Point.sub]
          rw [← hr2]
          refine congrArg₂ GBox.mk ?_ rfl
          ring
        · exact absurd rfl ha2
        · simp only [Point.proj, Point.sub]
          rw [← hr2]
          refine congrArg₂ GBox.mk ?_ rfl
          ring
      · by_cases hui : u.val = i
        · simp only [projAxis, hui, htat_i, hp, ← hr1]
        · simp only [projAxis, htat u.val hui huj]

  case negZ =>
    have hp : push_extents_apart r1 r2 =
        (r1, r2.subPt ((Direction.unitVec .negZ).smul (penetration r1 r2 .negZ))) := by
      rw [push_extents_apart, minVector_fst, hbest]
      simp [Direction.isNegative]
    have hcmp : penetration r1 r2 .negZ ≤ penetration r1 r2 .posZ := by
      have := hmin .posZ
      rw [hbest] at this
      exact this
    refine ⟨Axis.az, ?_, ?_⟩
    · refine ⟨⟨j, by omega⟩, ⟨i, by omega⟩, ?_, ?_, ?_, ?_, ?_⟩
      · intro hh
        have : j = i := congrArg Fin.val hh
        omega
      · constructor
        · show (s.getD i default).minimum.proj .az <
            (projAxis .az n s ⟨j, by omega⟩).wsup
          simp only [projAxis, GBox.wsup, Point.proj, ← hr1, ← hr2]
          have := hov.2.2
          simp only [Extent.worldSup, Point.add] at this ⊢
          omega
        · show (s.getD j default).minimum.proj .az <
            (projAxis .az n s ⟨i, by omega⟩).wsup
          simp only [projAxis, GBox.wsup, Point.proj, ← hr1, ← hr2]
          have := hov.2.2
          simp only [Extent.worldSup, Point.add] at this ⊢
          omega
      · show (projAxis .az n s ⟨i, by omega⟩).center ≤
          (projAxis .az n s ⟨j, by omega⟩).center
        simp only [projAxis, GBox.center, Point.proj, ← hr1, ← hr2]
        simp only [penetration, Extent.worldSup, Point.add] at hcmp
        omega
      · show projAxis .az n t ⟨j, by omega⟩ = _
        simp only [projAxis, htat_j, hp, Extent.subPt, Point.sub, Point.add,
          Point.smul, Direction.unitVec, penetration, Extent.worldSup, GBox.wsup,
          Point.proj, ← hr1, ← hr2]
        refine congrArg₂ GBox.mk ?_ rfl
        ring
      · intro u hu
        have huvj : u.val ≠ j := by
          intro he
          exact hu (Fin.ext he)
        by_cases hui : u.val = i
        · simp only [projAxis, htat_i, hp, ← hr1, hui]
        · simp only [projAxis, htat u.val hui huvj]
    · intro a2 ha2
      funext u
      by_cases huj : u.val = j
      · simp only [projAxis, huj, htat_j, hp, Extent.subPt, Point.sub, Point.smul,
          Direction.unitVec]
        rcases a2 with _ | _ | _
        · simp only [Point.proj, Point.sub]
          rw [← hr2]
          refine congrArg₂ GBox.mk ?_ rfl
          ring
        · simp only [Point.proj, Point.sub]
          rw [← hr2]
          refine congrArg₂ GBox.mk ?_ rfl
          ring
        · exact absurd rfl ha2
      · by_cases hui : u.val = i
        · simp only [projAxis, hui, htat_i, hp, ← hr1]
        · simp only [projAxis, htat u.val hui huj]


theorem scanPairs_mem {n : Nat} {p : Nat × Nat} (h : p ∈ scanPairs n) :
    p.1 < p.2 ∧ p.2 < n := by
  simp only [scanPairs, List.mem_flatMap, List.mem_map, List.mem_filter,
    List.mem_range] at h
  obtain ⟨i, hi, j, ⟨hj, hij⟩, rfl⟩ := h
  exact ⟨by simpa using hij, hj⟩

theorem scanPairs_mem_of_lt {n i j : Nat} (hij : i < j) (hj : j < n) :
    (i, j) ∈ scanPairs n := by
  simp only [scanPairs, List.mem_flatMap, List.mem_map, List.mem_filter,
    List.mem_range]
  exact ⟨i, lt_trans hij hj, j, ⟨hj, by simpa using hij⟩, rfl⟩

theorem resolvePairStep_length (st : List Extent × Bool) (p : Nat × Nat) :
    (resolvePairStep st p).1.length = st.1.length := by
  rw [resolvePairStep]
  split
  · rfl
  · simp [listSet_length]

theorem foldl_resolve_length (L : List (Nat × Nat)) (st : List Extent × Bool) :
    (L.foldl resolvePairStep st).1.length = st.1.length := by
  induction L generalizing st with
  | nil => rfl
  | cons p L ih => rw [List.foldl_cons, ih, resolvePairStep_length]

theorem foldl_resolve_false (L : List (Nat × Nat)) (st : List Extent × Bool)
    (hst : st.2 = false) : (L.foldl resolvePairStep st).2 = false := by
  induction L generalizing st with
  | nil => exact hst
  | cons p L ih =>
    rw [List.foldl_cons]
    refine ih _ ?_
    rw [resolvePairStep]
    split
    · exact hst
    · rfl

/-- If a full pass reports all rooms separated, it leaves the room list
unchanged and every scanned pair was already disjoint. -/
theorem foldl_resolve_true (L : List (Nat × Nat)) (cur : List Extent)
    (h : (L.foldl resolvePairStep (cur, true)).2 = true) :
    (L.foldl resolvePairStep (cur, true)).1 = cur ∧
      ∀ p ∈ L,
        ((cur.getD p.1 default).intersection (cur.getD p.2 default)).isEmpty = true := by
  induction L generalizing cur with
  | nil => exact ⟨rfl, by simp⟩
  | cons p L ih =>
    rw [List.foldl_cons] at h ⊢
    by_cases hemp :
        ((cur.getD p.1 default).intersection (cur.getD p.2 default)).isEmpty = true
    · have hstep : resolvePairStep (cur, true) p = (cur, true) := by
        rw [resolvePairStep]
        simp only [hemp]
        rfl
      rw [hstep] at h ⊢
      obtain ⟨h1, h2⟩ := ih cur h
      refine ⟨h1, ?_⟩
      intro q hq
      rcases List.mem_cons.mp hq with rfl | hq
      · exact hemp
      · exact h2 q hq
    · exfalso
      have hstep : (resolvePairStep (cur, true) p).2 = false := by
        rw [resolvePairStep]
        simp only [Bool.not_eq_true] at hemp
        simp only [hemp]
        rfl
      have := foldl_resolve_false L _ hstep
      rw [this] at h
      exact Bool.false_ne_true h

/-- Folding the pair steps either leaves the state unchanged or performs a
nonempty chain of pushes. -/
theorem foldl_resolve_chain (L : List (Nat × Nat)) :
    ∀ (cur : List Extent) (b : Bool),
      (∀ p ∈ L, p.1 < p.2 ∧ p.2 < cur.length) →
      (L.foldl resolvePairStep (cur, b)).1 = cur ∨
        Relation.TransGen PushRel cur (L.foldl resolvePairStep (cur, b)).1 := by
  induction L with
  | nil => intro cur b _; exact Or.inl rfl
  | cons p L ih =>
    intro cur b hL
    rw [List.foldl_cons]
    by_cases hemp :
        ((cur.getD p.1 default).intersection (cur.getD p.2 default)).isEmpty = true
    · have hstep : resolvePairStep (cur, b) p = (cur, b) := by
        rw [resolvePairStep]
        simp only [hemp]
        rfl
      rw [hstep]
      exact ih cur b (fun q hq => hL q (List.mem_cons_of_mem p hq))
    · have hp := hL p (List.mem_cons_self p L)
      have hpush : PushRel cur (resolvePairStep (cur, b) p).1 := by
        refine ⟨p.1, p.2, hp.1, hp.2, by simpa using hemp, ?_⟩
        rw [resolvePairStep]
        simp only [Bool.not_eq_true] at hemp
        simp only [hemp]
        rfl
      have hlen : (resolvePairStep (cur, b) p).1.length = cur.length :=
        resolvePairStep_length _ _
      have hL2 : ∀ q ∈ L, q.1 < q.2 ∧ q.2 < (resolvePairStep (cur, b) p).1.length := by
        intro q hq
        rw [hlen]
        exact hL q (List.mem_cons_of_mem p hq)
      have hsnd : (resolvePairStep (cur, b) p).2 = false := by
        rw [resolvePairStep]
        simp only [Bool.not_eq_true] at hemp
        simp only [hemp]
        rfl
      have hpair : resolvePairStep (cur, b) p =
          ((resolvePairStep (cur, b) p).1, false) := by
        rw [← hsnd]
      rw [hpair]
      rcases ih (resolvePairStep (cur, b) p).1 false hL2 with heq | htrans
      · rw [heq]
        exact Or.inr (Relation.TransGen.single hpush)
      · exact Or.inr (Relation.TransGen.head hpush htrans)

/-- Folding the pair steps from a clean flag and ending dirty performs a
nonempty chain of pushes. -/
theorem foldl_resolve_chain_of_false (L : List (Nat × Nat)) :
    ∀ (cur : List Extent),
      (∀ p ∈ L, p.1 < p.2 ∧ p.2 < cur.length) →
      (L.foldl resolvePairStep (cur, true)).2 = false →
      Relation.TransGen PushRel cur (L.foldl resolvePairStep (cur, true)).1 := by
  induction L with
  | nil =>
    intro cur _ hfalse
    exact absurd hfalse (by simp)
  | cons p L ih =>
    intro cur hL hfalse
    rw [List.foldl_cons] at hfalse ⊢
    by_cases hemp :
        ((cur.getD p.1 default).intersection (cur.getD p.2 default)).isEmpty = true
    · have hstep : resolvePairStep (cur, true) p = (cur, true) := by
        rw [resolvePairStep]
        simp only [hemp]
        rfl
      rw [hstep] at hfalse ⊢
      exact ih cur (fun q hq => hL q (List.mem_cons_of_mem p hq)) hfalse
    · have hp := hL p (List.mem_cons_self p L)
      have hpush : PushRel cur (resolvePairStep (cur, true) p).1 := by
        refine ⟨p.1, p.2, hp.1, hp.2, by simpa using hemp, ?_⟩
        rw [resolvePairStep]
        simp only [Bool.not_eq_true] at hemp
        simp only [hemp]
        rfl
      have hlen : (resolvePairStep (cur, true) p).1.length = cur.length :=
        resolvePairStep_length _ _
      have hL2 : ∀ q ∈ L,
          q.1 < q.2 ∧ q.2 < (resolvePairStep (cur, true) p).1.length := by
        intro q hq
        rw [hlen]
        exact hL q (List.mem_cons_of_mem p hq)
      have hsnd : (resolvePairStep (cur, true) p).2 = false := by
        rw [resolvePairStep]
        simp only [Bool.not_eq_true] at hemp
        simp only [hemp]
        rfl
      have hpair : resolvePairStep (cur, true) p =
          ((resolvePairStep (cur, true) p).1, false) := by
        rw [← hsnd]
      rw [hpair]
      rcases foldl_resolve_chain L (resolvePairStep (cur, true) p).1 false hL2 with
        heq | htrans
      · rw [heq]
        exact Relation.TransGen.single hpush
      · exact Relation.TransGen.head hpush htrans

/-- A pass that reports remaining overlap performs a nonempty chain of
pushes. -/
theorem resolvePass_chain (rooms : List Extent)
    (h : (resolvePass rooms).2 = false) :
    Relation.TransGen PushRel rooms (resolvePass rooms).1 :=
  foldl_resolve_chain_of_false (scanPairs rooms.length) rooms
    (fun p hp => scanPairs_mem hp) h

/-- A point of a run together with the pending chain to a later anchor of
the ambient sequence; used to flatten multi-step chains. -/
structure ChainState {α : Type} (R : α → α → Prop) (g : ℕ → α) where
  pt : α
  stage : ℕ
  chain : Relation.TransGen R pt (g stage)

/-- An infinite sequence of nonempty multi-step chains flattens to an
infinite sequence of single steps. -/
theorem flatten_transGen {α : Type} {R : α → α → Prop} (g : ℕ → α)
    (h : ∀ k, Relation.TransGen R (g k) (g (k + 1))) :
    ∃ f : ℕ → α, ∀ k, R (f k) (f (k + 1)) := by
  classical
  have decomp : ∀ (a : α) (m : ℕ), Relation.TransGen R a (g m) →
      ∃ c, R a c ∧ Relation.TransGen R c (g (m + 1)) := by
    intro a m ham
    obtain ⟨c, hac, hcg⟩ := Relation.TransGen.head'_iff.mp ham
    exact ⟨c, hac, Relation.TransGen.trans_right hcg (h m)⟩
  let step : ChainState R g → ChainState R g :=
    fun s => ⟨(decomp s.pt s.stage s.chain).choose, s.stage + 1,
      (decomp s.pt s.stage s.chain).choose_spec.2⟩
  let F : ℕ → ChainState R g :=
    fun k => step^[k] ⟨g 0, 1, h 0⟩
  refine ⟨fun k => (F k).pt, ?_⟩
  intro k
  have hsucc : F (k + 1) = step (F k) := by
    show step^[k + 1] _ = _
    rw [Function.iterate_succ_apply']
  show R (F k).pt (F (k + 1)).pt
  rw [hsucc]
  exact (decomp (F k).pt (F k).stage (F k).chain).choose_spec.1

/-- In an infinite run of pushes, room-list lengths are constant. -/
theorem pushRun_length {f : ℕ → List Extent}
    (hf : ∀ k, PushRel (f k) (f (k + 1))) (k : ℕ) :
    (f k).length = (f 0).length := by
  induction k with
  | zero => rfl
  | succ k ih => rw [(hf k).length_eq, ih]

/-- There is no infinite sequence of pushes: each push is a landing-game
move along one of the three axes, some axis hosts infinitely many pushes,
and the landing game on that axis terminates. -/
theorem no_infinite_pushRun (f : ℕ → List Extent)
    (hf : ∀ k, PushRel (f k) (f (k + 1))) : False := by
  classical
  set n := (f 0).length with hn
  have hproj : ∀ k, ∃ a : Axis,
      GStep (projAxis a n (f k)) (projAxis a n (f (k + 1))) ∧
      ∀ a2 : Axis, a2 ≠ a → projAxis a2 n (f k) = projAxis a2 n (f (k + 1)) := by
    intro k
    exact pushRel_project (hf k) n (by rw [hn, pushRun_length hf k])
  set label : ℕ → Axis := fun k => (hproj k).choose with hlabel
  have hlab : ∀ k, GStep (projAxis (label k) n (f k)) (projAxis (label k) n (f (k + 1))) ∧
      ∀ a2 : Axis, a2 ≠ label k →
        projAxis a2 n (f k) = projAxis a2 n (f (k + 1)) :=
    fun k => (hproj k).choose_spec
  -- some axis occurs infinitely often
  have hinf : ∃ a : Axis, {k : ℕ | label k = a}.Infinite := by
    by_contra hcon
    push_neg at hcon
    simp only [Set.not_infinite] at hcon
    have hcover : (Set.univ : Set ℕ) =
        {k | label k = Axis.ax} ∪ {k | label k = Axis.ay} ∪ {k | label k = Axis.az} := by
      apply Set.eq_of_subset_of_subset
      · intro k _
        rcases hcase : label k with _ | _ | _
        · exact Or.inl (Or.inl hcase)
        · exact Or.inl (Or.inr hcase)
        · exact Or.inr hcase
      · intro k _
        exact Set.mem_univ k
    have : (Set.univ : Set ℕ).Finite := by
      rw [hcover]
      exact ((hcon _).union (hcon _)).union (hcon _)
    exact Set.infinite_univ this
  obtain ⟨a, hS⟩ := hinf
  set S : Set ℕ := {k | label k = a} with hSdef
  -- enumerate S in increasing order with no members skipped
  have hex : ∀ N : ℕ, ∃ m, m ∈ S ∧ N < m := by
    intro N
    obtain ⟨m, hm, hNm⟩ := hS.exists_gt N
    exact ⟨m, hm, hNm⟩
  haveI hdec : ∀ N : ℕ, DecidablePred fun m => m ∈ S ∧ N < m :=
    fun N => Classical.decPred _
  haveI hdec0 : DecidablePred fun m => m ∈ S := Classical.decPred _
  have hex0 : ∃ m, m ∈ S := ⟨(hex 0).choose, (hex 0).choose_spec.1⟩
  let idx : ℕ → ℕ := fun k =>
    Nat.rec (Nat.find hex0) (fun _ prev => Nat.find (hex prev)) k
  have idx_mem : ∀ k, idx k ∈ S := by
    intro k
    cases k with
    | zero => exact Nat.find_spec hex0
    | succ k => exact (Nat.find_spec (hex (idx k))).1
  have idx_lt : ∀ k, idx k < idx (k + 1) := by
    intro k
    exact (Nat.find_spec (hex (idx k))).2
  have idx_min : ∀ k m, idx k < m → m < idx (k + 1) → m ∉ S := by
    intro k m h1 h2 hm
    have := Nat.find_min (hex (idx k)) h2
    push_neg at this
    have h3 := this hm
    omega
  -- the projection to axis a is constant between consecutive pushes on a
  have hconst : ∀ k t, idx k + 1 ≤ t → t ≤ idx (k + 1) →
      projAxis a n (f t) = projAxis a n (f (idx k + 1)) := by
    intro k t h1 h2
    induction t with
    | zero => omega
    | succ t ih =>
      rcases Nat.lt_or_ge (idx k + 1) (t + 1) with hlt | hge
      · have ht1 : idx k + 1 ≤ t := by omega
        have ht2 : t ≤ idx (k + 1) := by omega
        have htS : t ∉ S := idx_min k t (by omega) (by omega)
        have hne : a ≠ label t := by
          intro he
          exact htS he.symm
        rw [← (hlab t).2 a hne]
        exact ih ht1 ht2
      · have : t + 1 = idx k + 1 := by omega
        rw [this]
  -- the subsequence of states at push times on axis a is a game run
  set g : ℕ → Fin n → GBox := fun k => projAxis a n (f (idx k)) with hg
  have hgstep : ∀ k, GStep (g k) (g (k + 1)) := by
    intro k
    have h1 : GStep (projAxis a n (f (idx k))) (projAxis a n (f (idx k + 1))) := by
      have := (hlab (idx k)).1
      rwa [idx_mem k] at this
    have h2 : projAxis a n (f (idx (k + 1))) = projAxis a n (f (idx k + 1)) :=
      hconst k (idx (k + 1)) (idx_lt k) (le_refl _)
    show GStep (projAxis a n (f (idx k))) (projAxis a n (f (idx (k + 1))))
    rw [h2]
    exact h1
  exact game_terminates g hgstep

/-- When the resolver returns, every scanned pair of the returned room list
has empty intersection. -/
theorem resolve_some_disjoint : ∀ (fuel : Nat) (rooms out : List Extent),
    resolve_extent_overlaps fuel rooms = some out →
    ∀ i j, i < j → j < out.length →
      ((out.getD i default).intersection (out.getD j default)).isEmpty = true := by
  intro fuel
  induction fuel with
  | zero =>
    intro rooms out h
    exact absurd h (by simp [resolve_extent_overlaps])
  | succ fuel ih =>
    intro rooms out h i j hij hj
    simp only [resolve_extent_overlaps] at h
    by_cases hflag : (resolvePass rooms).2 = true
    · rw [if_pos hflag] at h
      have hpass := foldl_resolve_true (scanPairs rooms.length) rooms hflag
      have hout : out = rooms := by
        have : (resolvePass rooms).1 = rooms := hpass.1
        rw [← Option.some_inj.mp h, this]
      subst hout
      exact hpass.2 (i, j) (scanPairs_mem_of_lt hij hj)
    · rw [if_neg hflag] at h
      exact ih (resolvePass rooms).1 out h i j hij hj

/-- C1: `resolve_extent_overlaps` terminates on every finite room list, and
on return all extents are pairwise disjoint. -/
theorem resolve_terminates_and_separates (rooms : List Extent) :
    ∃ fuel out, resolve_extent_overlaps fuel rooms = some out ∧
      ∀ i j, i < j → j < out.length →
        ((out.getD i default).intersection (out.getD j default)).isEmpty = true := by
  have hterm : ∃ fuel out, resolve_extent_overlaps fuel rooms = some out := by
    by_contra hcon
    push_neg at hcon
    let pseq : ℕ → List Extent :=
      fun k => Nat.rec rooms (fun _ prev => (resolvePass prev).1) k
    have hnone : ∀ k fuel, resolve_extent_overlaps fuel (pseq k) = none := by
      intro k
      induction k with
      | zero =>
        intro fuel
        cases hres : resolve_extent_overlaps fuel rooms with
        | none => rfl
        | some o => exact absurd hres (hcon fuel o)
      | succ k ih =>
        intro fuel
        have h1 := ih (fuel + 1)
        simp only [resolve_extent_overlaps] at h1
        by_cases hflag : (resolvePass (pseq k)).2 = true
        · rw [if_pos hflag] at h1
          exact absurd h1 (by simp)
        · rw [if_neg hflag] at h1
          exact h1
    have hflagfalse : ∀ k, (resolvePass (pseq k)).2 = false := by
      intro k
      by_contra hf
      have h1 := hnone k 1
      simp only [resolve_extent_overlaps] at h1
      rw [if_pos (by simpa using hf)] at h1
      exact absurd h1 (by simp)
    have hchain : ∀ k, Relation.TransGen PushRel (pseq k) (pseq (k + 1)) :=
      fun k => resolvePass_chain (pseq k) (hflagfalse k)
    obtain ⟨f, hstep⟩ := flatten_transGen pseq hchain
    exact no_infinite_pushRun f hstep
  obtain ⟨fuel, out, hres⟩ := hterm
  exact ⟨fuel, out, hres, resolve_some_disjoint fuel rooms out hres⟩

/-!
## The symmetric pair store (src/symmetric_map.rs)
-/

/-- Embedding of `SymmetricMap` (src/symmetric_map.rs): an associative store
keyed by ordered index pairs.  The backing `FnvHashMap` is modelled from the
spec as an association list whose `insert` replaces any existing binding. -/
structure SymmetricMap (T : Type) where
  map : List ((Nat × Nat) × T)

/-- Embedding of `SymmetricMap::new`. -/
def SymmetricMap.new {T : Type} : SymmetricMap T := ⟨[]⟩

/-- Embedding of `SymmetricMap::order_indices`. -/
def order_indices (i1 i2 : Nat) : Nat × Nat :=
  if i1 > i2 then (i2, i1) else (i1, i2)

/-- Modelled from the spec: `FnvHashMap::insert`, replacing any existing
binding for the key. -/
def hashMapInsert {T : Type} (m : List ((Nat × Nat) × T)) (k : Nat × Nat)
    (v : T) : List ((Nat × Nat) × T) :=
  (k, v) :: m.filter (fun kv => kv.1 ≠ k)

/-- Modelled from the spec: `FnvHashMap` indexing; `none` models the panic
on a missing key. -/
def hashMapGet {T : Type} (m : List ((Nat × Nat) × T)) (k : Nat × Nat) :
    Option T :=
  (m.find? (fun kv => kv.1 = k)).map Prod.snd

/-- Embedding of `SymmetricMap::get`. -/
def SymmetricMap.get {T : Type} (m : SymmetricMap T) (i1 i2 : Nat) : Option T :=
  hashMapGet m.map (order_indices i1 i2)

/-- Embedding of `SymmetricMap::insert`. -/
def SymmetricMap.insert {T : Type} (m : SymmetricMap T) (i1 i2 : Nat) (v : T) :
    SymmetricMap T :=
  ⟨hashMapInsert m.map (order_indices i1 i2) v⟩

theorem order_indices_comm (i j : Nat) : order_indices i j = order_indices j i := by
  rw [order_indices, order_indices]
  rcases Nat.lt_trichotomy i j with h | h | h
  · rw [if_neg (by omega), if_pos h]
  · subst h
    rfl
  · rw [if_pos h, if_neg (by omega)]

/-- C9: after `SymmetricMap::insert(i, j, v)`, both `get(i, j)` and
`get(j, i)` return `v`: lookup by an unordered pair is symmetric in the
order of its two indices. -/
theorem symmetricMap_insert_get {T : Type} (m : SymmetricMap T)
    (i j : Nat) (v : T) :
    (m.insert i j v).get i j = some v ∧ (m.insert i j v).get j i = some v := by
  constructor
  · simp [SymmetricMap.get, SymmetricMap.insert, hashMapGet, hashMapInsert]
  · simp [SymmetricMap.get, SymmetricMap.insert, hashMapGet, hashMapInsert,
      order_indices_comm j i]

/-!
## The stable graph model and graph utilities (src/graph.rs)
-/

/-- The result of a fallible, possibly diverging computation: an ordinary
return value, a panic, or fuel exhaustion (modelling non-termination within
the given fuel). -/
inductive RResult (α : Type) where
  | ok (a : α)
  | panic
  | outOfFuel
deriving DecidableEq, Repr

/-- Modelled from the spec: `petgraph::stable_graph::StableGraph` with
undirected edges.  Nodes live in an arena of slots addressed by stable
integer handles; removed slots are tombstoned (`none`) and kept on a LIFO
free list that `add_node` pops, so re-adding after a removal reuses the
removed index.  Edges are kept in insertion order. -/
structure StableGraph (N E : Type) where
  nodes : List (Option N)
  freeList : List Nat
  edges : List (Nat × Nat × E)
deriving DecidableEq, Repr

/-- The empty stable graph. -/
def StableGraph.empty (N E : Type) : StableGraph N E := ⟨[], [], []⟩

/-- Modelled from the spec: `add_node` reuses the most recently freed slot
if one exists, otherwise appends a fresh slot; returns the new graph and the
node's index. -/
def StableGraph.addNode {N E : Type} (g : StableGraph N E) (w : N) :
    StableGraph N E × Nat :=
  match g.freeList with
  | [] => (⟨g.nodes ++ [some w], [], g.edges⟩, g.nodes.length)
  | i :: rest => (⟨listSet g.nodes i (some w), rest, g.edges⟩, i)

/-- Modelled from the spec: node membership. -/
def StableGraph.containsNode {N E : Type} (g : StableGraph N E) (i : Nat) : Bool :=
  (g.nodes.getD i none).isSome

/-- Modelled from the spec: `node_count`, the number of occupied slots. -/
def StableGraph.nodeCount {N E : Type} (g : StableGraph N E) : Nat :=
  (g.nodes.filter Option.isSome).length

/-- Modelled from the spec: `node_indices`, in increasing slot order. -/
def StableGraph.nodeIndices {N E : Type} (g : StableGraph N E) : List Nat :=
  (List.range g.nodes.length).filter (fun i => g.containsNode i)

/-- The weight stored at a node index. -/
def StableGraph.nodeWeight {N E : Type} (g : StableGraph N E) (i : Nat) : Option N :=
  g.nodes.getD i none

/-- Modelled from the spec: the edges incident to a node, as
(source, target, weight) triples; iteration order is a choice of the
model. -/
def StableGraph.edgesOf {N E : Type} (g : StableGraph N E) (i : Nat) :
    List (Nat × Nat × E) :=
  g.edges.filter (fun e => decide (e.1 = i) || decide (e.2.1 = i))

/-- Modelled from the spec: `remove_node` removes a node together with its
incident edges, pushes the slot on the free list, and returns the node's
weight; `none` if the node does not exist. -/
def StableGraph.removeNode {N E : Type} (g : StableGraph N E) (i : Nat) :
    Option (N × StableGraph N E) :=
  match g.nodes.getD i none with
  | none => none
  | some w =>
    some (w, ⟨listSet g.nodes i none, i :: g.freeList,
      g.edges.filter (fun e => !(decide (e.1 = i) || decide (e.2.1 = i)))⟩)

/-- Modelled from the spec: `add_edge` appends an edge. -/
def StableGraph.addEdge {N E : Type} (g : StableGraph N E) (i j : Nat) (e : E) :
    StableGraph N E :=
  ⟨g.nodes, g.freeList, g.edges ++ [(i, j, e)]⟩

/-- The neighbours of a node along incident edges. -/
def StableGraph.nbrs {N E : Type} (g : StableGraph N E) (i : Nat) : List Nat :=
  g.edges.filterMap (fun e =>
    if e.1 = i then some e.2.1 else if e.2.1 = i then some e.1 else none)

/-- One expansion step of reachability: add all neighbours. -/
def reachExpand {N E : Type} (g : StableGraph N E) (cur : List Nat) : List Nat :=
  (cur ++ cur.flatMap (fun v => g.nbrs v)).dedup

/-- Iterated reachability expansion. -/
def reachIter {N E : Type} (g : StableGraph N E) : Nat → List Nat → List Nat
  | 0, cur => cur
  | n + 1, cur => reachIter g n (reachExpand g cur)

/-- The nodes reachable from `v` (the connected component of `v`): expanding
once per slot saturates. -/
def StableGraph.reach {N E : Type} (g : StableGraph N E) (v : Nat) : List Nat :=
  reachIter g g.nodes.length [v]

/-- Modelled from the spec: `tarjan_scc` on an undirected graph computes the
connected components; the order of components and of nodes within a
component is a choice of the model. -/
def StableGraph.components {N E : Type} (g : StableGraph N E) : List (List Nat) :=
  g.nodeIndices.foldl
    (fun comps v => if comps.any (fun c => v ∈ c) then comps else comps ++ [g.reach v])
    []

/-- Embedding of `induced_subgraph` (src/graph.rs), with
`StableGraph::filter_map` modelled from the spec: retained nodes keep their
indices, all other slots are tombstoned, and only edges between retained
nodes survive.  The free list is unobservable until the next removal and is
modelled as empty. -/
def induced_subgraph {N E : Type} (g : StableGraph N E) (keep : List Nat) :
    StableGraph N E :=
  ⟨(List.range g.nodes.length).map
      (fun i => if i ∈ keep then g.nodes.getD i none else none),
    [],
    g.edges.filter (fun e => decide (e.1 ∈ keep) && decide (e.2.1 ∈ keep))⟩

/-- The last component of maximal size (Rust's `max_by_key` keeps the last
maximal element). -/
def lastMaxByLen (l : List (List Nat)) : Option (List Nat) :=
  l.foldl
    (fun acc c =>
      match acc with
      | none => some c
      | some b => if b.length ≤ c.length then some c else some b)
    none

/-- Embedding of `largest_connected_subgraph` (src/graph.rs): returns
`some` iff the graph has more than one connected component, in which case
the node-induced subgraph of the largest component is returned. -/
def largest_connected_subgraph {N E : Type} (g : StableGraph N E) :
    Option (StableGraph N E) :=
  let comps := g.components
  if 1 < comps.length then
    match lastMaxByLen comps with
    | some largest => some (induced_subgraph g largest)
    | none => none
  else none

/-- The result of one full pass of the inner node loop of
`prune_outer_nodes_to_reach_size`: the pass ran to completion (with a flag
recording whether any node was removed), returned early because the node
count reached the target, or panicked. -/
inductive PruneStep (N E : Type) where
  | finished (g : StableGraph N E) (removed : Bool)
  | early (g : StableGraph N E)
  | panicked

/-- Embedding of the inner `for` loop of `prune_outer_nodes_to_reach_size`
(src/graph.rs) over the snapshot of node indices. -/
def pruneLoop {N E : Type} (accept : StableGraph N E → Bool)
    (desired maxEdges : Nat) :
    List Nat → StableGraph N E → Bool → PruneStep N E
  | [], g, removed => .finished g removed
  | n :: rest, g, removed =>
    if g.nodeCount ≤ desired then .early g
    else
      let es := g.edgesOf n
      if es.length = maxEdges then
        match g.removeNode n with
        | none => .panicked
        | some (w, g1) =>
          let sub := largest_connected_subgraph g1
          let check := sub.getD g1
          if accept check then
            pruneLoop accept desired maxEdges rest check true
          else
            let g2 := (g1.addNode w).1
            let g3 := es.foldl (fun gg e => gg.addEdge e.1 e.2.1 e.2.2) g2
            pruneLoop accept desired maxEdges rest g3 removed
      else pruneLoop accept desired maxEdges rest g removed

/-- The outer `loop` of `prune_outer_nodes_to_reach_size`, with the current
degree threshold and explicit fuel bounding the number of outer passes. -/
def pruneOuter {N E : Type} (accept : StableGraph N E → Bool) (desired : Nat) :
    Nat → Nat → StableGraph N E → RResult (StableGraph N E)
  | 0, _, _ => .outOfFuel
  | fuel + 1, maxEdges, g =>
    match pruneLoop accept desired maxEdges g.nodeIndices g false with
    | .early g2 => .ok g2
    | .panicked => .panic
    | .finished g2 removed =>
      pruneOuter accept desired fuel (if removed then maxEdges else maxEdges + 1) g2

/-- Embedding of `prune_outer_nodes_to_reach_size` (src/graph.rs): the outer
loop starts with a degree threshold of
`max_edges_per_removed_node = 1`. -/
def prune_outer_nodes_to_reach_size {N E : Type}
    (fuel : Nat) (accept : StableGraph N E → Bool) (desired : Nat)
    (g : StableGraph N E) : RResult (StableGraph N E) :=
  pruneOuter accept desired fuel 1 g

theorem listSet_listSet_same {α : Type} (l : List α) (n : Nat) (a b : α) :
    listSet (listSet l n a) n b = listSet l n b := by
  induction l generalizing n with
  | nil => rfl
  | cons x xs ih =>
    cases n with
    | zero => rfl
    | succ n => simp [listSet, ih]

theorem getD_some_lt {α : Type} (l : List (Option α)) (n : Nat) (w : α)
    (h : l.getD n none = some w) : n < l.length := by
  by_contra hn
  push_neg at hn
  rw [List.getD_eq_default _ _ hn] at h
  exact Option.noConfusion h

theorem listSet_getD_self {α : Type} (l : List α) (n : Nat) (d : α)
    (hn : n < l.length) : listSet l n (l.getD n d) = l := by
  induction l generalizing n with
  | nil => rfl
  | cons x xs ih =>
    cases n with
    | zero => rfl
    | succ n =>
      simp only [listSet, List.getD_cons_succ, List.cons.injEq, true_and]
      exact ih n (by simpa using hn)

/-- Restoring a removed node (re-adding its weight and edges) restores node
membership exactly. -/
theorem restore_preserves_contains {N E : Type} (g : StableGraph N E)
    (n : Nat) (w : N) (g1 : StableGraph N E)
    (hrem : g.removeNode n = some (w, g1))
    (es : List (Nat × Nat × E)) (s : Nat) :
    ((es.foldl (fun gg e => gg.addEdge e.1 e.2.1 e.2.2) (g1.addNode w).1)).containsNode s =
      g.containsNode s := by
  have hedges : ∀ (es2 : List (Nat × Nat × E)) (gg : StableGraph N E),
      ((es2.foldl (fun gg e => gg.addEdge e.1 e.2.1 e.2.2) gg)).nodes = gg.nodes := by
    intro es2
    induction es2 with
    | nil => intro gg; rfl
    | cons e es2 ih => intro gg; rw [List.foldl_cons, ih]; rfl
  rw [StableGraph.removeNode] at hrem
  rcases hw : g.nodes.getD n none with _ | w2
  · rw [hw] at hrem
    exact Option.noConfusion hrem
  · rw [hw] at hrem
    simp only [Option.some.injEq, Prod.mk.injEq] at hrem
    obtain ⟨hw2, hg1⟩ := hrem
    rw [StableGraph.containsNode, StableGraph.containsNode, hedges, ← hg1]
    have hadd : ((StableGraph.addNode
        ⟨listSet g.nodes n none, n :: g.freeList,
          g.edges.filter (fun e => !(decide (e.1 = n) || decide (e.2.1 = n)))⟩ w).1).nodes =
        listSet g.nodes n (some w) := by
      rw [StableGraph.addNode]
      simp only [listSet_listSet_same]
    rw [hadd]
    have hn : n < g.nodes.length := getD_some_lt g.nodes n w2 hw
    rw [← hw2, ← hw, listSet_getD_self g.nodes n none hn]

/-- Invariant transport through the possible outcomes of an inner pass. -/
def stepInv {N E : Type} (P : StableGraph N E → Prop) : PruneStep N E → Prop
  | .finished g _ => P g
  | .early g => P g
  | .panicked => True

/-- The inner pass of the pruner preserves presence of a protected node set
`S`, given an acceptance predicate that accepts only graphs containing all
of `S`. -/
theorem pruneLoop_preserves {N E : Type} (S : List Nat)
    (accept : StableGraph N E → Bool)
    (hacc : ∀ g', accept g' = true → ∀ s ∈ S, g'.containsNode s = true)
    (desired maxEdges : Nat) :
    ∀ (L : List Nat) (g : StableGraph N E) (removed : Bool),
      (∀ s ∈ S, g.containsNode s = true) →
      stepInv (fun g2 => ∀ s ∈ S, g2.containsNode s = true)
        (pruneLoop accept desired maxEdges L g removed) := by
  intro L
  induction L with
  | nil => intro g removed hg; exact hg
  | cons n rest ih =>
    intro g removed hg
    rw [pruneLoop]
    split
    · exact hg
    · simp only
      split
      · rcases hrem : g.removeNode n with _ | pr
        · simp only [hrem]
          trivial
        · obtain ⟨w, g1⟩ := pr
          simp only [hrem]
          split
          · rename_i hacc2
            exact ih _ true (hacc _ hacc2)
          · refine ih _ removed ?_
            intro s hs
            rw [restore_preserves_contains g n w g1 hrem _ s]
            exact hg s hs
      · exact ih g removed hg

/-- The outer pruning loop preserves presence of a protected node set on
every ordinary return. -/
theorem pruneOuter_preserves {N E : Type} (S : List Nat)
    (accept : StableGraph N E → Bool)
    (hacc : ∀ g', accept g' = true → ∀ s ∈ S, g'.containsNode s = true)
    (desired : Nat) :
    ∀ (fuel maxEdges : Nat) (g g2 : StableGraph N E),
      (∀ s ∈ S, g.containsNode s = true) →
      pruneOuter accept desired fuel maxEdges g = .ok g2 →
      ∀ s ∈ S, g2.containsNode s = true := by
  intro fuel
  induction fuel with
  | zero =>
    intro maxEdges g g2 hg h
    exact absurd h (by simp [pruneOuter])
  | succ fuel ih =>
    intro maxEdges g g2 hg h
    rw [pruneOuter] at h
    have hinv := pruneLoop_preserves S accept hacc desired maxEdges
      g.nodeIndices g false hg
    rcases hres : pruneLoop accept desired maxEdges g.nodeIndices g false with
      ⟨g3, removed⟩ | ⟨g3⟩ | _
    · rw [hres] at h hinv
      exact ih _ g3 g2 hinv h
    · rw [hres] at h hinv
      have hg3 : g3 = g2 := by
        have h2 : RResult.ok g3 = RResult.ok g2 := h
        exact RResult.ok.inj h2
      rw [← hg3]
      exact hinv
    · rw [hres] at h
      have h2 : (RResult.panic : RResult (StableGraph N E)) = RResult.ok g2 := h
      exact RResult.noConfusion h2

/-- C4: for every acceptance predicate that accepts a graph only if it
contains every node of a fixed set `S`, and every input graph containing
all of `S`, whenever `prune_outer_nodes_to_reach_size` returns, every node
of `S` is still present (a rejected tentative removal is restored with its
node membership intact). -/
theorem prune_preserves_protected {N E : Type} (S : List Nat)
    (accept : StableGraph N E → Bool) (fuel desired : Nat)
    (g g2 : StableGraph N E)
    (hacc : ∀ g', accept g' = true → ∀ s ∈ S, g'.containsNode s = true)
    (hS : ∀ s ∈ S, g.containsNode s = true)
    (hok : prune_outer_nodes_to_reach_size fuel accept desired g = .ok g2) :
    ∀ s ∈ S, g2.containsNode s = true :=
  pruneOuter_preserves S accept hacc desired fuel 1 g g2 hS hok

/-- C4 witness: a concrete run of the pruner with protected set `{0}`
returning normally and keeping node 0. -/
theorem prune_preserves_protected_witness :
    prune_outer_nodes_to_reach_size 1
      (fun g : StableGraph Nat Unit => g.containsNode 0) 1
      ⟨[some 5], [], []⟩ = .ok ⟨[some 5], [], []⟩ ∧
    ∀ s ∈ [0], (StableGraph.containsNode (N := Nat) (E := Unit)
      ⟨[some 5], [], []⟩ s) = true := by
  constructor
  · decide
  · refine prune_preserves_protected [0]
      (fun g : StableGraph Nat Unit => g.containsNode 0) 1 1
      ⟨[some 5], [], []⟩ ⟨[some 5], [], []⟩ ?_ ?_ ?_
    · intro g' hg' s hs
      have : s = 0 := by simpa using hs
      subst this
      exact hg'
    · intro s hs
      have : s = 0 := by simpa using hs
      subst this
      decide
    · decide

theorem pruneOuter_stall_aux :
    ∀ (fuel m : Nat), 1 ≤ m →
      pruneOuter (fun _ : StableGraph Nat Unit => true) 0 fuel m
        ⟨[some 0], [], []⟩ = .outOfFuel := by
  intro fuel
  induction fuel with
  | zero => intro m hm; rfl
  | succ fuel ih =>
    intro m hm
    rw [pruneOuter]
    have hloop : pruneLoop (fun _ : StableGraph Nat Unit => true) 0 m
        (StableGraph.nodeIndices (⟨[some 0], [], []⟩ : StableGraph Nat Unit))
        ⟨[some 0], [], []⟩ false = .finished ⟨[some 0], [], []⟩ false := by
      have hni : StableGraph.nodeIndices
          (⟨[some 0], [], []⟩ : StableGraph Nat Unit) = [0] := by decide
      rw [hni, pruneLoop]
      rw [if_neg (by decide)]
      simp only [StableGraph.edgesOf, List.filter_nil, List.length_nil]
      rw [if_neg (by omega)]
      rfl
    rw [hloop]
    show pruneOuter _ 0 fuel (if false = true then m else m + 1) _ = _
    rw [if_neg (by simp)]
    exact ih (m + 1) (by omega)

/-- C2 (code bug): when no node can ever be removed and the node count
exceeds the target, `prune_outer_nodes_to_reach_size` never returns — on a
single isolated node with target size 0 the outer loop raises the degree
threshold forever, exhausting any amount of fuel instead of detecting that
no further progress is possible. -/
theorem prune_outer_nodes_stalls :
    ∀ fuel : Nat, prune_outer_nodes_to_reach_size fuel
      (fun _ : StableGraph Nat Unit => true) 0 ⟨[some 0], [], []⟩ =
        .outOfFuel :=
  fun fuel => pruneOuter_stall_aux fuel 1 (le_refl 1)

theorem pruneLoop_early_le {N E : Type} (accept : StableGraph N E → Bool)
    (desired maxEdges : Nat) :
    ∀ (L : List Nat) (g : StableGraph N E) (removed : Bool)
      (g2 : StableGraph N E),
      pruneLoop accept desired maxEdges L g removed = .early g2 →
      g2.nodeCount ≤ desired := by
  intro L
  induction L with
  | nil =>
    intro g removed g2 h
    exact PruneStep.noConfusion h
  | cons n rest ih =>
    intro g removed g2 h
    rw [pruneLoop] at h
    by_cases hcnt : g.nodeCount ≤ desired
    · rw [if_pos hcnt] at h
      have : g = g2 := PruneStep.early.inj h
      rw [← this]
      exact hcnt
    · rw [if_neg hcnt] at h
      simp only at h
      split at h
      · rcases hrem : g.removeNode n with _ | pr
        · rw [hrem] at h
          exact PruneStep.noConfusion h
        · obtain ⟨w, g1⟩ := pr
          rw [hrem] at h
          simp only at h
          split at h
          · exact ih _ true g2 h
          · exact ih _ removed g2 h
      · exact ih g removed g2 h

theorem pruneOuter_ok_le {N E : Type} (accept : StableGraph N E → Bool)
    (desired : Nat) :
    ∀ (fuel maxEdges : Nat) (g g2 : StableGraph N E),
      pruneOuter accept desired fuel maxEdges g = .ok g2 →
      g2.nodeCount ≤ desired := by
  intro fuel
  induction fuel with
  | zero =>
    intro maxEdges g g2 h
    exact RResult.noConfusion h
  | succ fuel ih =>
    intro maxEdges g g2 h
    rw [pruneOuter] at h
    rcases hres : pruneLoop accept desired maxEdges g.nodeIndices g false with
      ⟨g3, removed⟩ | ⟨g3⟩ | _
    · rw [hres] at h
      exact ih _ g3 g2 h
    · rw [hres] at h
      have h2 : RResult.ok g3 = RResult.ok g2 := h
      rw [← RResult.ok.inj h2]
      exact pruneLoop_early_le accept desired maxEdges g.nodeIndices g false g3 hres
    · rw [hres] at h
      have h2 : (RResult.panic : RResult (StableGraph N E)) = RResult.ok g2 := h
      exact RResult.noConfusion h2

/-- The barbell graph: two triangles joined by a bridge edge. -/
def barbellGraph : StableGraph Nat Unit :=
  ⟨[some 0, some 1, some 2, some 3, some 4, some 5], [],
   [(0, 1, ()), (0, 2, ()), (1, 2, ()), (3, 4, ()), (3, 5, ()), (4, 5, ()),
    (2, 3, ())]⟩

/-- C3 counterexample: pruning a connected 6-node graph to target size 4
with an always-accepting predicate returns a graph of only 3 nodes:
adopting the largest connected subgraph after a removal can drop below the
target, so a returned graph may have fewer nodes than the input
guaranteed. -/
theorem prune_fewer_counterexample :
    4 ≤ barbellGraph.nodeCount ∧
    prune_outer_nodes_to_reach_size 2 (fun _ => true) 4 barbellGraph =
      .ok ⟨[none, none, none, some 3, some 4, some 5], [],
        [(3, 4, ()), (3, 5, ()), (4, 5, ())]⟩ ∧
    (StableGraph.nodeCount (N := Nat) (E := Unit)
      ⟨[none, none, none, some 3, some 4, some 5], [],
        [(3, 4, ()), (3, 5, ()), (4, 5, ())]⟩) < 4 := by
  refine ⟨by decide, by decide, by decide⟩

/-- C3 (amended): whenever `prune_outer_nodes_to_reach_size` returns, the
node count of the returned graph is at most `desired_size`; it can be
strictly fewer than `desired_size` even when the input had at least
`desired_size` nodes, because adopting the largest connected subgraph can
remove several nodes at once. -/
theorem prune_returns_at_most_desired {N E : Type} (fuel : Nat)
    (accept : StableGraph N E → Bool) (desired : Nat)
    (g g2 : StableGraph N E)
    (hok : prune_outer_nodes_to_reach_size fuel accept desired g = .ok g2) :
    g2.nodeCount ≤ desired :=
  pruneOuter_ok_le accept desired fuel 1 g g2 hok

/-- C3 witness: a concrete run of the pruner returning normally with node
count within the target. -/
theorem prune_returns_at_most_desired_witness :
    prune_outer_nodes_to_reach_size 1 (fun _ : StableGraph Nat Unit => true) 1
      ⟨[some 0], [], []⟩ = .ok ⟨[some 0], [], []⟩ ∧
    (StableGraph.nodeCount (N := Nat) (E := Unit) ⟨[some 0], [], []⟩) ≤ 1 := by
  constructor
  · decide
  · exact prune_returns_at_most_desired 1 (fun _ => true) 1
      ⟨[some 0], [], []⟩ ⟨[some 0], [], []⟩ (by decide)

/-!
## Longest path in a tree (src/graph.rs)
-/

/-- Modelled from the spec: `NodeIndex::end()`, the sentinel index
`usize::MAX`. -/
def nodeIndexEnd : Nat := 18446744073709551615

/-- A bounds-checked vector read; `none` models the Rust panic on an
out-of-bounds index. -/
def listGetChecked (l : List Nat) (i : Nat) : Option Nat :=
  if i < l.length then some (l.getD i 0) else none

/-- A bounds-checked vector write; `none` models the Rust panic on an
out-of-bounds index. -/
def listSetChecked (l : List Nat) (i v : Nat) : Option (List Nat) :=
  if i < l.length then some (listSet l i v) else none

/-- Modelled from the spec: one recursive visit of
`petgraph::visit::depth_first_search`, recording `predecessors[v] = u` and
`successors[u] = v` at every tree edge, as `longest_path_to_point_in_tree`
does; neighbour order is a choice of the model. -/
def dfsGo {N E : Type} (g : StableGraph N E) :
    Nat → Nat → (List Nat × List Nat × List Nat) →
    RResult (List Nat × List Nat × List Nat)
  | 0, _, _ => .outOfFuel
  | fuel + 1, u, st =>
    (g.nbrs u).foldl
      (fun (acc : RResult (List Nat × List Nat × List Nat)) v =>
        match acc with
        | .ok (vis, preds, succs) =>
          if v ∈ vis then .ok (vis, preds, succs)
          else
            match listSetChecked preds v u, listSetChecked succs u v with
            | some preds2, some succs2 => dfsGo g fuel v (v :: vis, preds2, succs2)
            | _, _ => .panic
        | e => e)
      (.ok st)

/-- The predecessor/successor arrays of a depth-first search from `target`,
as built by `longest_path_to_point_in_tree` (src/graph.rs): both arrays
have length `node_count` and are initialised with the end sentinel. -/
def dfsArrays {N E : Type} (g : StableGraph N E) (fuel target : Nat) :
    RResult (List Nat × List Nat) :=
  match dfsGo g fuel target
      ([target], List.replicate g.nodeCount nodeIndexEnd,
        List.replicate g.nodeCount nodeIndexEnd) with
  | .ok (_, preds, succs) => .ok (preds, succs)
  | .panic => .panic
  | .outOfFuel => .outOfFuel

/-- The trace loop of `longest_path_to_point_in_tree`: follow predecessor
links from a leaf, pushing each predecessor, until the target is reached;
an out-of-range read of the predecessor array is a panic. -/
def traceLoop (preds : List Nat) (target : Nat) :
    Nat → Nat → List Nat → RResult (List Nat)
  | 0, _, _ => .outOfFuel
  | fuel + 1, next, path =>
    match listGetChecked preds next with
    | none => .panic
    | some pred =>
      if pred = target then .ok (path ++ [pred])
      else traceLoop preds target fuel pred (path ++ [pred])

/-- The fold over leaves keeping the longest traced path. -/
def longestFold (preds : List Nat) (target fuel : Nat) :
    List Nat → List Nat → RResult (List Nat)
  | [], maxPath => .ok maxPath
  | i :: rest, maxPath =>
    match traceLoop preds target fuel i [i] with
    | .ok path =>
      longestFold preds target fuel rest
        (if maxPath.length < path.length then path else maxPath)
    | .panic => .panic
    | .outOfFuel => .outOfFuel

/-- Embedding of `longest_path_to_point_in_tree` (src/graph.rs). -/
def longest_path_to_point_in_tree {N E : Type} (g : StableGraph N E)
    (fuel target : Nat) : RResult (List Nat) :=
  match dfsArrays g fuel target with
  | .ok (preds, succs) =>
    match g.nodeIndices.foldl
        (fun (acc : RResult (List Nat)) i =>
          match acc with
          | .ok l =>
            match listGetChecked succs i with
            | some s => .ok (if s = nodeIndexEnd then l ++ [i] else l)
            | none => .panic
          | e => e)
        (.ok ([] : List Nat)) with
    | .ok noSucc => longestFold preds target fuel noSucc []
    | .panic => .panic
    | .outOfFuel => .outOfFuel
  | .panic => .panic
  | .outOfFuel => .outOfFuel

/-- Embedding of `longest_path_in_tree` (src/graph.rs): two depth-first
sweeps; panics when the graph has no nodes or the first sweep returns an
empty path. -/
def longest_path_in_tree {N E : Type} (g : StableGraph N E) (fuel : Nat) :
    RResult (List Nat) :=
  match g.nodeIndices with
  | [] => .panic
  | start :: _ =>
    match longest_path_to_point_in_tree g fuel start with
    | .ok path =>
      match path with
      | [] => .panic
      | p0 :: _ => longest_path_to_point_in_tree g fuel p0
    | .panic => .panic
    | .outOfFuel => .outOfFuel

/-- C6 (code bug): on the single-node tree — a valid non-empty tree —
`longest_path_in_tree` panics (the predecessor of the start node is the end
sentinel, and the trace loop then indexes the predecessor array at
`usize::MAX`) instead of returning the one-node path. -/
theorem longest_path_single_node_panics :
    longest_path_in_tree (⟨[some 0], [], []⟩ : StableGraph Nat Unit) 10 =
      .panic := by decide

/-- Supporting check: on the path graph 0-1-2-3-4 the double sweep returns
the full 5-node path, matching the specification's concrete example. -/
theorem longest_path_path5 :
    longest_path_in_tree
      (⟨[some 0, some 1, some 2, some 3, some 4], [],
        [(0, 1, ()), (1, 2, ()), (2, 3, ()), (3, 4, ())]⟩ :
        StableGraph Nat Unit) 20 = .ok [0, 1, 2, 3, 4] := by decide

/-!
## Door and room geometry (src/room.rs)
-/

/-- Modelled from the spec: `Extent::directional_grow`, growing each of the
six faces outward by the given per-direction amount. -/
def Extent.directionalGrow (e : Extent) (amt : Direction → Int) : Extent :=
  ⟨⟨e.minimum.x - amt .negX, e.minimum.y - amt .negY, e.minimum.z - amt .negZ⟩,
   ⟨e.localSup.x + amt .posX + amt .negX,
    e.localSup.y + amt .posY + amt .negY,
    e.localSup.z + amt .posZ + amt .negZ⟩⟩

/-- Modelled from the spec: `Extent::radial_grow`, growing all six faces by
the same amount. -/
def Extent.radialGrow (e : Extent) (k : Int) : Extent :=
  e.directionalGrow (fun _ => k)

/-- Modelled from the spec: `Extent::is_subset`, componentwise box
containment. -/
def Extent.isSubset (e1 e2 : Extent) : Bool :=
  decide (e2.minimum.x ≤ e1.minimum.x) && decide (e1.worldSup.x ≤ e2.worldSup.x) &&
  decide (e2.minimum.y ≤ e1.minimum.y) && decide (e1.worldSup.y ≤ e2.worldSup.y) &&
  decide (e2.minimum.z ≤ e1.minimum.z) && decide (e1.worldSup.z ≤ e2.worldSup.z)

/-- Embedding of `get_door_able_extent_for_rooms` (src/room.rs): a door is
possible iff the penetration depth is zero along exactly one direction; the
door-able region is the intersection of the two extents grown one unit into
each other along the door normal and shrunk one unit along the other two
axes. -/
def get_door_able_extent_for_rooms (r1 r2 : Extent) :
    Option (Extent × Direction) :=
  let zeroes := allDirections.filter (fun d => penetration r1 r2 d == 0)
  if zeroes.length = 1 then
    let dir := zeroes.headD Direction.posX
    let negDir := dir.negate
    let growBy : Direction → Int :=
      fun d => if d ≠ dir ∧ d ≠ negDir then -1 else 0
    let r1Grow : Direction → Int := fun d => if d = negDir then 1 else growBy d
    let r2Grow : Direction → Int := fun d => if d = dir then 1 else growBy d
    some ((r1.directionalGrow r1Grow).intersection (r2.directionalGrow r2Grow),
      dir)
  else none

/-- C5: `get_door_able_extent_for_rooms` returns `some` iff the per-axis
penetration of the two extents is zero along exactly one direction; two
4×4×4 boxes sharing only a face (offset -4 on one axis) yield the
well-defined door-able region of the repository's own unit test, while an
edge contact (two zero-penetration axes) and a corner contact (three) yield
`none`. -/
theorem door_able_iff_one_zero_axis :
    (∀ r1 r2 : Extent,
      (get_door_able_extent_for_rooms r1 r2).isSome = true ↔
        (allDirections.filter (fun d => penetration r1 r2 d == 0)).length = 1) ∧
    get_door_able_extent_for_rooms ⟨⟨0, 0, 0⟩, ⟨4, 4, 4⟩⟩ ⟨⟨0, 0, -4⟩, ⟨4, 4, 4⟩⟩ =
      some (⟨⟨1, 1, -1⟩, ⟨2, 2, 2⟩⟩, .posZ) ∧
    get_door_able_extent_for_rooms ⟨⟨0, 0, 0⟩, ⟨4, 4, 4⟩⟩ ⟨⟨0, -4, -4⟩, ⟨4, 4, 4⟩⟩ =
      none ∧
    get_door_able_extent_for_rooms ⟨⟨0, 0, 0⟩, ⟨4, 4, 4⟩⟩ ⟨⟨-4, -4, -4⟩, ⟨4, 4, 4⟩⟩ =
      none := by
  refine ⟨?_, by decide, by decide, by decide⟩
  intro r1 r2
  rw [get_door_able_extent_for_rooms]
  by_cases h : (allDirections.filter (fun d => penetration r1 r2 d == 0)).length = 1
  · simp only [if_pos h, Option.isSome_some]
    exact ⟨fun _ => h, fun _ => trivial⟩
  · simp only [if_neg h, Option.isSome_none]
    exact ⟨fun hf => absurd hf (by simp), fun hh => absurd hh h⟩

/-!
## Voxel output, sampling and the dungeon pipeline
(src/room.rs, src/sampling.rs, src/map_types/dungeon.rs)
-/

/-- Embedding of `Voxel` (src/lib.rs); the `f32` distance is modelled by
its exact integer code for the two constant values the program writes. -/
structure Voxel where
  distance : Int
  voxel_type : Nat
deriving DecidableEq, Repr

/-- The exact integer value of `f32::MAX`. -/
def f32MaxCode : Int := 340282346638528859811704183484516925440

/-- Embedding of `EMPTY_VOXEL` (src/room.rs). -/
def EMPTY_VOXEL : Voxel := ⟨f32MaxCode, 0⟩

/-- Embedding of `FLOOR_VOXEL` (src/room.rs). -/
def FLOOR_VOXEL : Voxel := ⟨-1, 1⟩

/-- The integers `lo, lo+1, …, lo+n-1`. -/
def intRange (lo : Int) (n : Nat) : List Int :=
  (List.range n).map (fun k => lo + (k : Int))

/-- Modelled from the spec: iteration over the lattice points of an extent;
the iteration order is a choice of the model. -/
def pointsOf (e : Extent) : List Point :=
  (intRange e.minimum.x e.localSup.x.toNat).flatMap (fun px =>
    (intRange e.minimum.y e.localSup.y.toNat).flatMap (fun py =>
      (intRange e.minimum.z e.localSup.z.toNat).map (fun pz => ⟨px, py, pz⟩)))

/-- Embedding of `fill_map_with_rooms` (src/room.rs): write a floor voxel at
every point of each room not inside the room shrunk by the wall thickness 5;
the voxel writes are returned as an ordered list. -/
def fill_map_with_rooms (rooms : List Extent) : List (Point × Voxel) :=
  rooms.flatMap (fun r =>
    let rInterior := r.radialGrow (-5)
    (pointsOf r).filterMap (fun p =>
      if rInterior.containsWorld p then none else some (p, FLOOR_VOXEL)))

/-- Embedding of `fill_map_with_doors` (src/room.rs). -/
def fill_map_with_doors (doors : List Extent) : List (Point × Voxel) :=
  doors.flatMap (fun d => (pointsOf d).map (fun p => (p, EMPTY_VOXEL)))

/-- Embedding of `SpawnArea` (src/lib.rs). -/
structure SpawnArea where
  valid_spawn_points : List Point
deriving DecidableEq, Repr

/-- Embedding of `DungeonMeta` (src/map_types/dungeon.rs). -/
structure DungeonMeta where
  spawn_area : SpawnArea
deriving DecidableEq, Repr

/-- Embedding of `spawn_in_room` (src/room.rs): the room shrunk one unit on
all faces, flattened to height 1 above the floor. -/
def spawn_in_room (room : Extent) : SpawnArea :=
  let internal := room.directionalGrow (fun _ => -1)
  ⟨pointsOf ⟨internal.minimum, ⟨internal.localSup.x, 1, internal.localSup.z⟩⟩⟩

/-- Modelled from the spec: the probability-distribution primitives are
consumed as opaque samplers of lattice points and scalars, threaded through
a single sequential random-state (`Nat`); `uniSample` models one draw of
`Uniform::from(lo..=hi)`. -/
structure Samplers where
  locSample : Nat → Point × Nat
  sizeSample : Nat → Point × Nat
  uniSample : Nat → Int → Int → Int × Nat

/-- Embedding of `sample_range` (src/sampling.rs): two draws from the same
uniform range, returned in sorted order. -/
def sample_range (S : Samplers) (rng : Nat) (lo hi : Int) : (Int × Int) × Nat :=
  let c1p := S.uniSample rng lo hi
  let c2p := S.uniSample c1p.2 lo hi
  (if c2p.1 < c1p.1 then (c2p.1, c1p.1) else (c1p.1, c2p.1), c2p.2)

/-- Embedding of `sample_extents` (src/sampling.rs): rejection sampling of
extents until the quota is met, with fuel bounding the number of draws
(the Rust loop is unbounded). -/
def sample_extents (S : Samplers) (pred : Extent → Bool) :
    Nat → Nat → Nat → List Extent → RResult (List Extent × Nat)
  | 0, num, rng, acc =>
    if num ≤ acc.length then .ok (acc, rng) else .outOfFuel
  | fuel + 1, num, rng, acc =>
    if num ≤ acc.length then .ok (acc, rng)
    else
      let lp := S.locSample rng
      let sp := S.sizeSample lp.2
      let extent : Extent := ⟨lp.1, sp.1⟩
      sample_extents S pred fuel num sp.2
        (if pred extent then acc ++ [extent] else acc)

/-- The positive direction of a direction's axis. -/
def Direction.positive : Direction → Direction
  | .posX | .negX => .posX
  | .posY | .negY => .posY
  | .posZ | .negZ => .posZ

/-- Modelled from the spec: `Normal::get_plane_span_info`, the two in-plane
unit vectors spanning the plane orthogonal to an axis; the assignment of
`u` and `v` is a choice of the model. -/
def planeSpan : Direction → Point × Point
  | .posX | .negX => (⟨0, 1, 0⟩, ⟨0, 0, 1⟩)
  | .posY | .negY => (⟨1, 0, 0⟩, ⟨0, 0, 1⟩)
  | .posZ | .negZ => (⟨1, 0, 0⟩, ⟨0, 1, 0⟩)

/-- Embedding of `try_generate_door_big_enough_between_rooms`
(src/room.rs). -/
def try_generate_door_big_enough_between_rooms (S : Samplers)
    (minD maxD : Nat) (r1 r2 : Extent) (rng : Nat) : Option Extent × Nat :=
  match get_door_able_extent_for_rooms r1 r2 with
  | none => (none, rng)
  | some (extent, dir) =>
    if extent.isEmpty then (none, rng)
    else
      let pos := dir.positive
      let n := pos.unitVec
      let uv := planeSpan pos
      let uSup := extent.localSup.dot uv.1
      let vSup := extent.localSup.dot uv.2
      if uSup < (minD : Int) ∨ vSup < (minD : Int) then (none, rng)
      else
        let uMin := extent.minimum.dot uv.1
        let vMin := extent.minimum.dot uv.2
        let dup := sample_range S rng uMin (uMin + uSup - 1)
        let dvp := sample_range S dup.2 vMin (vMin + vSup - 1)
        let duSup := max (min (1 + dup.1.2 - dup.1.1) (maxD : Int)) (minD : Int)
        let dvSup := max (min (1 + dvp.1.2 - dvp.1.1) (maxD : Int)) (minD : Int)
        let door : Extent :=
          ⟨(n.smul (extent.minimum.dot n)).add
              ((uv.1.smul dup.1.1).add (uv.2.smul dvp.1.1)),
            (n.smul 2).add ((uv.1.smul duSup).add (uv.2.smul dvSup))⟩
        if door.isSubset extent then (some door, dvp.2) else (none, dvp.2)

/-- Embedding of `generate_door_graph` (src/room.rs): one node per room,
and for each unordered pair (in scan order, skipping `j ≤ i`) an edge and a
stored door when door sampling succeeds. -/
def generate_door_graph (S : Samplers) (rooms : List Extent)
    (minD maxD : Nat) (rng : Nat) :
    StableGraph Nat Unit × SymmetricMap Extent × Nat :=
  let g0 : StableGraph Nat Unit :=
    ⟨(List.range rooms.length).map (fun i => some i), [], []⟩
  (scanPairs rooms.length).foldl
    (fun st p =>
      match try_generate_door_big_enough_between_rooms S minD maxD
          (rooms.getD p.1 default) (rooms.getD p.2 default) st.2.2 with
      | (some door, rng2) =>
        (st.1.addEdge p.1 p.2 (), (st.2.1).insert p.1 p.2 door, rng2)
      | (none, rng2) => (st.1, st.2.1, rng2))
    (g0, SymmetricMap.new, rng)

/-- Embedding of `collect_rooms_from_room_graph` (src/room.rs). -/
def collect_rooms_from_room_graph (cands : List Extent)
    (g : StableGraph Nat Unit) : List Extent :=
  g.nodeIndices.map (fun i => cands.getD ((g.nodeWeight i).getD 0) default)

/-- Embedding of `collect_doors_from_room_graph` (src/room.rs). -/
def collect_doors_from_room_graph (doors : SymmetricMap Extent)
    (g : StableGraph Nat Unit) : List Extent :=
  g.edges.map (fun e =>
    (doors.get ((g.nodeWeight e.1).getD 0) ((g.nodeWeight e.2.1).getD 0)).getD
      default)

/-- Modelled from the spec: `min_spanning_tree` composed with
`from_elements` — with unit edge weights, a spanning forest built by a
greedy scan of the edges, on compacted node indices. -/
def spanningForest {N E : Type} [Inhabited N] (g : StableGraph N E) :
    StableGraph N E :=
  let idxMap : Nat → Nat := fun old => g.nodeIndices.findIdx (fun x => x = old)
  let base : StableGraph N E :=
    ⟨g.nodeIndices.map (fun i => g.nodes.getD i none), [], []⟩
  g.edges.foldl
    (fun acc e =>
      let a := idxMap e.1
      let b := idxMap e.2.1
      if b ∈ acc.reach a then acc else acc.addEdge a b e.2.2)
    base

/-- Embedding of `RoomGraphSpec` (src/map_types/dungeon.rs). -/
structure RoomGraphSpec where
  num_rooms : Nat
  entrance_to_objective_path_length : Nat
deriving DecidableEq, Repr

/-- Embedding of `DungeonMapSpec` (src/map_types/dungeon.rs); the room
location/size distribution parameters are consumed only through the opaque
`Samplers`, and the dimension bounds are `u32` values modelled as `Nat`. -/
structure DungeonMapSpec where
  seed : List Nat
  room_graph : RoomGraphSpec
  min_room_dim : Nat
  max_room_dim : Nat
  min_door_dim : Nat
  max_door_dim : Nat
deriving DecidableEq, Repr

/-- Embedding of `DungeonMapSpec::valid_room_size`. -/
def valid_room_size (spec : DungeonMapSpec) (room : Extent) : Bool :=
  decide ((spec.min_room_dim : Int) ≤ room.localSup.x) &&
  decide ((spec.min_room_dim : Int) ≤ room.localSup.y) &&
  decide ((spec.min_room_dim : Int) ≤ room.localSup.z) &&
  decide (room.localSup.x ≤ (spec.max_room_dim : Int)) &&
  decide (room.localSup.y ≤ (spec.max_room_dim : Int)) &&
  decide (room.localSup.z ≤ (spec.max_room_dim : Int))

/-- Embedding of `choose_main_path` (src/map_types/dungeon.rs): with
`desired_len = 0` the slice bound `desired_len - 1` underflows, which is a
panic; node weights are looked up through the spanning tree. -/
def choose_main_path (fuel desired_len : Nat) (mst : StableGraph Nat Unit) :
    RResult (Option (List Nat)) :=
  match longest_path_in_tree mst fuel with
  | .ok path =>
    if desired_len ≤ path.length then
      if desired_len = 0 then .panic
      else
        match (path.take (desired_len - 1)).mapM (fun n => mst.nodeWeight n) with
        | some ws => .ok (some ws)
        | none => .panic
    else .ok none
  | .panic => .panic
  | .outOfFuel => .outOfFuel

/-- The observable outcome of one generation attempt: the returned value (or
panic / fuel exhaustion), the final random state, and the ordered list of
voxel writes sent to the encoder. -/
structure GenOutcome where
  result : RResult (Option DungeonMeta)
  rng : Nat
  writes : List (Point × Voxel)
deriving DecidableEq, Repr

/-- The tail of `DungeonMapSpec::try_generate` from the spanning-tree step
on (src/map_types/dungeon.rs): choose the main path, prune while protecting
its rooms, emit the voxel writes, and spawn in the last main-path room. -/
def tryGenAfterMst (S : Samplers) (spec : DungeonMapSpec) (fuel : Nat)
    (resolved : List Extent) (doors : SymmetricMap Extent)
    (rg1 : StableGraph Nat Unit) (rng2 : Nat) : GenOutcome :=
  let mst := spanningForest rg1
  match choose_main_path fuel spec.room_graph.entrance_to_objective_path_length
      mst with
  | .panic => ⟨.panic, rng2, []⟩
  | .outOfFuel => ⟨.outOfFuel, rng2, []⟩
  | .ok none => ⟨.ok none, rng2, []⟩
  | .ok (some main_path) =>
    let keepNodes := rg1.nodeIndices.filter
      (fun n => decide ((rg1.nodeWeight n).getD 0 ∈ main_path))
    let accept : StableGraph Nat Unit → Bool :=
      fun g2 => keepNodes.all (fun n => g2.containsNode n)
    match prune_outer_nodes_to_reach_size fuel accept spec.room_graph.num_rooms
        rg1 with
    | .outOfFuel => ⟨.outOfFuel, rng2, []⟩
    | .panic => ⟨.panic, rng2, []⟩
    | .ok rgPruned =>
      let writes :=
        fill_map_with_rooms (collect_rooms_from_room_graph resolved rgPruned) ++
        fill_map_with_doors (collect_doors_from_room_graph doors rgPruned)
      match main_path.getLast? with
      | none => ⟨.panic, rng2, writes⟩
      | some last =>
        ⟨.ok (some ⟨spawn_in_room (resolved.getD last default)⟩), rng2, writes⟩

/-- Embedding of `DungeonMapSpec::try_generate`
(src/map_types/dungeon.rs). -/
def try_generate (S : Samplers) (spec : DungeonMapSpec) (fuel rng0 : Nat) :
    GenOutcome :=
  match sample_extents S (valid_room_size spec) fuel
      (10 * spec.room_graph.num_rooms) rng0 [] with
  | .outOfFuel => ⟨.outOfFuel, rng0, []⟩
  | .panic => ⟨.panic, rng0, []⟩
  | .ok (cands, rng1) =>
    match resolve_extent_overlaps fuel cands with
    | none => ⟨.outOfFuel, rng1, []⟩
    | some resolved =>
      let gd := generate_door_graph S resolved spec.min_door_dim
        spec.max_door_dim rng1
      match largest_connected_subgraph gd.1 with
      | some sub =>
        if sub.nodeCount < spec.room_graph.num_rooms then ⟨.ok none, gd.2.2, []⟩
        else tryGenAfterMst S spec fuel resolved gd.2.1 sub gd.2.2
      | none => tryGenAfterMst S spec fuel resolved gd.2.1 gd.1 gd.2.2

/-- Embedding of `MAX_GENERATE_TRIES` (src/map_types/dungeon.rs). -/
def MAX_GENERATE_TRIES : Nat := 200

/-- The retry loop of `DungeonMapSpec::generate`: the result carries the
number of remaining tries at success (identifying which attempt succeeded),
the final random state, and all voxel writes. -/
def generateGo (S : Samplers) (spec : DungeonMapSpec) (fuel : Nat) :
    Nat → Nat → RResult (DungeonMeta × Nat) × Nat × List (Point × Voxel)
  | 0, rng => (.panic, rng, [])
  | tries + 1, rng =>
    let out := try_generate S spec fuel rng
    match out.result with
    | .ok (some meta) => (.ok (meta, tries), out.rng, out.writes)
    | .ok none =>
      let rest := generateGo S spec fuel tries out.rng
      (rest.1, rest.2.1, out.writes ++ rest.2.2)
    | .panic => (.panic, out.rng, out.writes)
    | .outOfFuel => (.outOfFuel, out.rng, out.writes)

/-- Embedding of `DungeonMapSpec::generate` (src/map_types/dungeon.rs). -/
def generate (S : Samplers) (spec : DungeonMapSpec) (fuel rng : Nat) :
    RResult (DungeonMeta × Nat) × Nat × List (Point × Voxel) :=
  generateGo S spec fuel MAX_GENERATE_TRIES rng

/-- Modelled from the spec: `small_rng` (src/sampling.rs) deterministically
seeds the random state from the four 32-bit seed words. -/
def small_rng (seed : List Nat) : Nat :=
  seed.foldl (fun a b => a * 4294967296 + b % 4294967296) 0

theorem tryGenAfterMst_none_no_writes (S : Samplers) (spec : DungeonMapSpec)
    (fuel : Nat) (resolved : List Extent) (doors : SymmetricMap Extent)
    (rg1 : StableGraph Nat Unit) (rng2 : Nat) :
    (tryGenAfterMst S spec fuel resolved doors rg1 rng2).result = .ok none →
    (tryGenAfterMst S spec fuel resolved doors rg1 rng2).writes = [] := by
  simp only [tryGenAfterMst]
  split
  · intro _; rfl
  · intro _; rfl
  · intro _; rfl
  · split
    · intro _; rfl
    · intro _; rfl
    · split
      · intro hcon
        exact absurd hcon (by simp)
      · intro hcon
        exact absurd hcon (by simp)

/-- C7: whenever `try_generate` returns `None` (a failed attempt), it has
made no `encode_voxel` call: the voxel write list of a `None` outcome is
empty, since writes happen only on the success path after the connectivity
and main-path checks. -/
theorem try_generate_none_no_writes (S : Samplers) (spec : DungeonMapSpec)
    (fuel rng : Nat)
    (h : (try_generate S spec fuel rng).result = .ok none) :
    (try_generate S spec fuel rng).writes = [] := by
  revert h
  simp only [try_generate]
  split
  · intro _; rfl
  · intro _; rfl
  · split
    · intro _; rfl
    · split
      · split
        · intro _; rfl
        · exact tryGenAfterMst_none_no_writes S spec fuel _ _ _ _
      · exact tryGenAfterMst_none_no_writes S spec fuel _ _ _ _

/-- A concrete sampler: room locations march rightward with the random
state, sizes are constant 4×4×4, uniform draws return the lower bound. -/
def sTriv : Samplers :=
  ⟨fun r => (⟨4 * (r : Int), 0, 0⟩, r + 1),
   fun r => (⟨4, 4, 4⟩, r),
   fun r lo _ => (lo, r)⟩

/-- A configuration whose ten candidate rooms form a face-adjacent chain,
whose longest path is shorter than the requested main-path length, so the
attempt fails with `None` at the main-path step. -/
def spec7 : DungeonMapSpec := ⟨[], ⟨1, 11⟩, 4, 4, 1, 3⟩

set_option maxRecDepth 4000 in
/-- C7 witness: a concrete failed attempt returning `None` with an empty
write list. -/
theorem try_generate_none_no_writes_witness :
    (try_generate sTriv spec7 30 0).result = .ok none ∧
    (try_generate sTriv spec7 30 0).writes = [] :=
  ⟨by decide, try_generate_none_no_writes sTriv spec7 30 0 (by decide)⟩

/-- C8: for a fixed `DungeonMapSpec`, opaque samplers, and fuel, two runs of
`generate` from identically seeded random sources produce identical results:
the same metadata, the same final random state, the same ordered voxel-write
sequence, and the same succeeding attempt (every sampling decision is drawn
from the single random state threaded in a fixed order). -/
theorem generate_deterministic (S : Samplers) (spec : DungeonMapSpec)
    (fuel : Nat) (seed1 seed2 : List Nat) (h : seed1 = seed2) :
    generate S spec fuel (small_rng seed1) =
      generate S spec fuel (small_rng seed2) := by
  rw [h]

/-- C8 witness: the determinism theorem applied at a concrete seed. -/
theorem generate_deterministic_witness :
    generate sTriv spec7 1 (small_rng [1, 2, 3, 4]) =
      generate sTriv spec7 1 (small_rng [1, 2, 3, 4]) :=
  generate_deterministic sTriv spec7 1 [1, 2, 3, 4] [1, 2, 3, 4] rfl

theorem choose_main_path_zero_one {fuel dl : Nat} {mst : StableGraph Nat Unit}
    {mp : List Nat} (hdl : dl = 0 ∨ dl = 1)
    (h : choose_main_path fuel dl mst = .ok (some mp)) : mp = [] := by
  rw [choose_main_path] at h
  rcases h2 : longest_path_in_tree mst fuel with path | _ | _ <;> rw [h2] at h <;>
    simp only at h
  · rcases hdl with rfl | rfl
    · rw [if_pos (Nat.zero_le _), if_pos rfl] at h
      exact absurd h (by simp)
    · by_cases hlen : 1 ≤ path.length
      · rw [if_pos hlen, if_neg (by omega)] at h
        simp only [Nat.sub_self, List.take_zero, List.mapM_nil] at h
        have h3 : (RResult.ok (some ([] : List Nat)) :
            RResult (Option (List Nat))) = .ok (some mp) := h
        have := RResult.ok.inj h3
        exact (Option.some_inj.mp this).symm
      · rw [if_neg hlen] at h
        exact absurd h (by simp)
  · exact absurd h (by simp)
  · exact absurd h (by simp)

/-- C10: if `entrance_to_objective_path_length` is 0 or 1 and an attempt
reaches the main-path step, `try_generate` panics rather than failing the
attempt or returning: from the spanning-tree step on, the attempt can never
return a successful result, and whenever `choose_main_path` yields a main
path (necessarily empty: with length 0 the slice bound underflows into a
panic first, with length 1 the slice is empty) the subsequent
`main_path.last().unwrap()` panics — only fuel exhaustion of the embedded
loops can mask the panic. -/
theorem tryGen_main_path_panics (S : Samplers) (spec : DungeonMapSpec)
    (fuel : Nat) (resolved : List Extent) (doors : SymmetricMap Extent)
    (rg1 : StableGraph Nat Unit) (rng2 : Nat)
    (hlen : spec.room_graph.entrance_to_objective_path_length = 0 ∨
      spec.room_graph.entrance_to_objective_path_length = 1) :
    (∀ meta,
      (tryGenAfterMst S spec fuel resolved doors rg1 rng2).result ≠
        .ok (some meta)) ∧
    (∀ mp,
      choose_main_path fuel spec.room_graph.entrance_to_objective_path_length
        (spanningForest rg1) = .ok (some mp) →
      (tryGenAfterMst S spec fuel resolved doors rg1 rng2).result = .panic ∨
      (tryGenAfterMst S spec fuel resolved doors rg1 rng2).result = .outOfFuel) := by
  constructor
  · intro meta
    simp only [tryGenAfterMst]
    rcases h2 : choose_main_path fuel
        spec.room_graph.entrance_to_objective_path_length
        (spanningForest rg1) with op | _ | _
    · rcases op with _ | mp
      · simp
      · have hmp : mp = [] := choose_main_path_zero_one hlen h2
        subst hmp
        simp only
        split
        · simp
        · simp
        · simp
    · simp
    · simp
  · intro mp h2
    have hmp : mp = [] := choose_main_path_zero_one hlen h2
    subst hmp
    simp only [tryGenAfterMst, h2]
    split
    · simp
    · simp
    · simp

/-- A two-node connected graph. -/
def g2node : StableGraph Nat Unit := ⟨[some 0, some 1], [], [(0, 1, ())]⟩

/-- A configuration requesting a main path of length 0. -/
def spec10 : DungeonMapSpec := ⟨[], ⟨0, 0⟩, 0, 0, 0, 0⟩

/-- C10 witness: with main-path length 0 a concrete attempt that reaches
the main-path step panics. -/
theorem tryGen_main_path_panics_witness :
    (spec10.room_graph.entrance_to_objective_path_length = 0 ∨
      spec10.room_graph.entrance_to_objective_path_length = 1) ∧
    (∀ meta, (tryGenAfterMst sTriv spec10 10 [] SymmetricMap.new g2node 0).result ≠
      .ok (some meta)) ∧
    (tryGenAfterMst sTriv spec10 10 [] SymmetricMap.new g2node 0).result = .panic :=
  ⟨Or.inl rfl,
   (tryGen_main_path_panics sTriv spec10 10 [] SymmetricMap.new g2node 0
     (Or.inl rfl)).1,
   by decide⟩

end Procgen
